import Mathlib

/-!
Verification development for the hdbscan-ts clustering core
(`src/hdbscan/core.ts`, the current revision of the `HDBSCAN` class).

Shallow embedding conventions:

* JS numbers are modelled by exact rationals `ℚ`.  Every arithmetic step the
  core performs on coordinates and edge weights (sums of squares, `Math.max`,
  `Math.min`, comparisons, subtraction inside sort comparators) is exact on
  rationals, so no rounding model is needed there.  The only operations that
  can leave the rationals are the divisions in `calculateClusterStability`
  and `calculateMembership`; those are modelled with the type `JSN`, which
  represents a JS number as a finite rational or one of the IEEE special
  values `Infinity`, `-Infinity`, `NaN` (e.g. `1/0 = Infinity`,
  `0/0 = NaN`, `Infinity - Infinity = NaN`, comparisons with `NaN` are
  false).
* Out-of-range array reads (`undefined` access) and explicit `throw new
  Error(...)` both surface as `Except.error`; messages of explicit throws
  are kept verbatim, implicit TypeErrors get a fixed descriptive message.
* Nontermination that JS could exhibit (the `while` loop of Prim when no
  vertex is selectable, unbounded union-find recursion, unbounded
  `processCluster` recursion) is modelled with fuel; exhausted fuel yields
  `Option.none` (respectively a distinguished error message), which is
  distinct from every invariant-violation error thrown by the source.
* The write-only fields of the class (`clusterMap`, which is never read, and
  `Cluster.stability`, which is written but never read by any control-flow
  or output decision — it only feeds `this.log`) are omitted from the state.
* Object references to child clusters are modelled by the (unique) cluster
  ids (`leftChildId`/`rightChildId`); the source only tests presence of
  `leftChild` and follows ids for reporting.
-/

namespace HDB

/-- Model of a JS number in the arithmetic fragment the core uses: a finite
rational or one of the IEEE special values. -/
inductive JSN where
  | num (q : ℚ)
  | posInf
  | negInf
  | nan
deriving Repr, DecidableEq

namespace JSN

/-- JS addition on the modelled values. -/
def jadd : JSN → JSN → JSN
  | num a, num b => num (a + b)
  | num _, posInf => posInf
  | posInf, num _ => posInf
  | num _, negInf => negInf
  | negInf, num _ => negInf
  | posInf, posInf => posInf
  | negInf, negInf => negInf
  | _, _ => nan

/-- JS subtraction on the modelled values. -/
def jsub : JSN → JSN → JSN
  | num a, num b => num (a - b)
  | num _, posInf => negInf
  | posInf, num _ => posInf
  | num _, negInf => posInf
  | negInf, num _ => negInf
  | posInf, negInf => posInf
  | negInf, posInf => negInf
  | _, _ => nan

/-- JS multiplication on the modelled values (`0 * Infinity = NaN`). -/
def jmul : JSN → JSN → JSN
  | num a, num b => num (a * b)
  | num a, posInf => if 0 < a then posInf else if a < 0 then negInf else nan
  | posInf, num a => if 0 < a then posInf else if a < 0 then negInf else nan
  | num a, negInf => if 0 < a then negInf else if a < 0 then posInf else nan
  | negInf, num a => if 0 < a then negInf else if a < 0 then posInf else nan
  | posInf, posInf => posInf
  | negInf, negInf => posInf
  | posInf, negInf => negInf
  | negInf, posInf => negInf
  | _, _ => nan

/-- JS division on the modelled values (`q/0` is `±Infinity` for `q ≠ 0`,
`0/0 = NaN`; there are no negative zeros in the rational model). -/
def jdiv : JSN → JSN → JSN
  | num a, num b =>
      if b = 0 then (if 0 < a then posInf else if a < 0 then negInf else nan)
      else num (a / b)
  | num _, posInf => num 0
  | num _, negInf => num 0
  | posInf, num b => if 0 ≤ b then posInf else negInf
  | negInf, num b => if 0 ≤ b then negInf else posInf
  | _, _ => nan

/-- Whether a JS value is a finite number (used to state that `NaN` is not
a rational value in `[0, 1]`). -/
def isNum : JSN → Bool
  | num _ => true
  | _ => false

/-- JS strict `<` (false whenever `NaN` is involved). -/
def jlt : JSN → JSN → Bool
  | num a, num b => a < b
  | num _, posInf => true
  | negInf, num _ => true
  | negInf, posInf => true
  | _, _ => false

/-- JS strict `>`. -/
def jgt (a b : JSN) : Bool := jlt b a

end JSN

open JSN

/-- JS array indexing with an integer index: negative or out-of-range reads
give `undefined` (`none`). -/
def jsGet {α : Type} (l : List α) (i : ℤ) : Option α :=
  if i < 0 then none else l.get? i.toNat

/-- A weighted edge `[source, destination, weight]` of the MST. -/
structure Edge where
  s : ℕ
  d : ℕ
  w : ℚ
deriving Repr, DecidableEq

/-- `euclideanDistance` of the current core: despite the name it returns the
SUM OF SQUARED coordinate differences (`a.reduce((acc, curr, index) => acc +
(curr - b[index]) ** 2, 0)`) — there is no `Math.sqrt`.  Points of equal
dimension are traversed pairwise (the claims only concern rectangular
data; a ragged pair would make JS produce `NaN`, which is outside every
claim's scope). -/
def euclideanDistance (a b : List ℚ) : ℚ :=
  (a.zip b).foldl (fun acc p => acc + (p.1 - p.2) ^ 2) 0

/-- The core-distance computation of `computeMutualReachabilityDistance` for
point `i`: collect distances to every other point, sort ascending (the JS
sort is stable, and only the sorted value sequence matters here), and read
index `min(minSamples - 1, pointDistances.length - 1)`.  A negative index
(which happens exactly when `n = 1`) reads `undefined`. -/
def coreDistanceOf (minSamples : ℤ) (data : List (List ℚ)) (i : ℕ) : Option ℚ :=
  let n := data.length
  let pointDistances :=
    ((List.range n).filter (fun j => i ≠ j)).map
      (fun j => euclideanDistance (data.getD i []) (data.getD j []))
  let sorted := List.insertionSort (· ≤ ·) pointDistances
  jsGet sorted (min (minSamples - 1) ((pointDistances.length : ℤ) - 1))

/-- The `for i` loop filling `coreDistances`: reading the `.distance` of an
undefined array slot (the `n = 1` case) is the implicit TypeError path. -/
def coresLoop (minSamples : ℤ) (data : List (List ℚ)) :
    List ℕ → Except String (List ℚ)
  | [] => Except.ok []
  | i :: rest =>
    match coreDistanceOf minSamples data i with
    | some q => do
      let qs ← coresLoop minSamples data rest
      Except.ok (q :: qs)
    | none => Except.error "TypeError: undefined core distance"

/-- Step 1: the mutual-reachability matrix.  `M[i][j] =
Math.max(directDistance, coreDistances[i], coreDistances[j])`. -/
def computeMutualReachabilityDistance (minSamples : ℤ) (data : List (List ℚ)) :
    Except String (List (List ℚ)) := do
  let n := data.length
  let coreDistances ← coresLoop minSamples data (List.range n)
  Except.ok ((List.range n).map (fun i => (List.range n).map (fun j =>
    max (euclideanDistance (data.getD i []) (data.getD j []))
      (max (coreDistances.getD i 0) (coreDistances.getD j 0)))))

/-- `distances[v][i]` as an optional read. -/
def rowGet (distances : List (List ℚ)) (v i : ℕ) : Option ℚ :=
  (distances.get? v).bind (fun row => row.get? i)

/-- The selection scan of Prim's loop: over `i = 0 .. n-1`, keep the first
unvisited vertex whose candidate weight is strictly below the best so far
(`minEdges[i] < minDist`); ties therefore keep the smallest index.  `none`
entries (`Infinity`/`undefined` candidates) never win a comparison. -/
def selectMinVertex (n : ℕ) (visited : List ℕ) (minE : List (Option (ℚ × ℕ))) :
    Option (ℚ × ℕ) :=
  (List.range n).foldl
    (fun best i =>
      if i ∈ visited then best
      else
        match (minE.get? i).join with
        | some wc =>
          match best with
          | none => some (wc.1, i)
          | some b => if wc.1 < b.1 then some (wc.1, i) else best
        | none => best)
    none

/-- The relaxation scan after visiting `v`: each unvisited `i` with
`distances[v][i] < minEdges[i]` gets candidate `(distances[v][i], v)`.
An absent stored candidate is never replaced: the only `Infinity` slot the
algorithm ever creates is index `0`, which is visited from the start, and
all other absent slots stem from `undefined` matrix reads, for which the JS
comparison is false. -/
def relaxEdges (distances : List (List ℚ)) (n v : ℕ) (visited : List ℕ)
    (minE : List (Option (ℚ × ℕ))) : List (Option (ℚ × ℕ)) :=
  (List.range n).map (fun i =>
    let old := (minE.get? i).join
    if i ∈ visited then old
    else
      match rowGet distances v i, old with
      | some w, some wc => if w < wc.1 then some (w, v) else some wc
      | some _, none => none
      | none, o => o)

/-- The `while (visited.size < n)` loop of Prim's algorithm; each successful
iteration emits `[minEdgeConnections[v], v, minDist]` and visits `v`.
`none` models the infinite loop JS would enter if no vertex were selectable
(never reached from well-formed matrices). -/
def mstLoop (distances : List (List ℚ)) (n : ℕ) :
    ℕ → List ℕ → List (Option (ℚ × ℕ)) → List Edge → Option (List Edge)
  | 0, visited, _, edges => if n ≤ visited.length then some edges else none
  | fuel + 1, visited, minE, edges =>
    if n ≤ visited.length then some edges
    else
      match selectMinVertex n visited minE with
      | none => none
      | some wv =>
        let v := wv.2
        let conn := (((minE.get? v).join).map Prod.snd).getD 0
        let visited2 := v :: visited
        mstLoop distances n fuel visited2 (relaxEdges distances n v visited2 minE)
          (edges ++ [⟨conn, v, wv.1⟩])

/-- Step 2: build the MST with Prim's algorithm started from vertex 0.
`minEdges[i]`/`minEdgeConnections[i]` are merged into one optional pair
(the source always writes them together; `none` stands for the initial
`Infinity`/`-1` pair or an `undefined` read). -/
def buildMinimumSpanningTree (distances : List (List ℚ)) : Option (List Edge) :=
  let n := distances.length
  let minE0 := (List.range n).map
    (fun i => if i = 0 then none else (rowGet distances 0 i).map (fun w => (w, 0)))
  mstLoop distances n n [0] minE0 []

/-- A node of the cluster hierarchy, as in the source interface `Cluster`.
`distance` and `birthDistance` are always assigned the same value by
`createCluster` call sites; `minReachabilityMap` is an association list in
insertion (= `points`) order.  The `stability` field and `clusterMap` are
omitted (write-only, see the header). -/
structure Cluster where
  id : ℕ
  children : List ℕ
  distance : ℚ
  size : ℕ
  maxEdgeWeight : ℚ
  birthDistance : ℚ
  leaveEdgeWeight : ℚ
  minReachabilityMap : List (ℕ × ℚ)
  leftChildId : Option ℕ := none
  rightChildId : Option ℕ := none
deriving Repr, DecidableEq

/-- First-binding association-list lookup (models `Map.get`). -/
def assocGet (l : List (ℕ × ℚ)) (k : ℕ) : Option ℚ :=
  (l.find? (fun p => p.1 = k)).map Prod.snd

/-- `getMinReachability`: the minimum weight among the given edges that are
incident to `point` and have both endpoints inside `clusterPoints`; `none`
models the initial `Infinity` when no such edge exists. -/
def getMinReachability (point : ℕ) (clusterPoints : List ℕ)
    (sortedEdges : List Edge) : Option ℚ :=
  let relevantEdges := sortedEdges.filter (fun e =>
    (e.s = point ∨ e.d = point) ∧ e.s ∈ clusterPoints ∧ e.d ∈ clusterPoints)
  relevantEdges.foldl
    (fun m e =>
      if e.s = point ∨ e.d = point then
        match m with
        | none => some e.w
        | some q => some (min q e.w)
      else m)
    none

/-- `createCluster`: computes the per-point minimum reachabilities (an
unreachable point gets 0) and their running maximum `leaveEdgeWeight`. -/
def createCluster (points : List ℕ) (distance : ℚ) (sortedEdges : List Edge)
    (birthDistance : ℚ) (id : ℕ) : Cluster :=
  let minReachMap := points.map (fun p =>
    (p, match getMinReachability p points sortedEdges with
        | some q => q
        | none => 0))
  let leaveEdgeWeight := minReachMap.foldl (fun acc pr => max acc pr.2) 0
  { id := id
    children := points
    distance := distance
    size := points.length
    maxEdgeWeight := distance
    birthDistance := birthDistance
    leaveEdgeWeight := leaveEdgeWeight
    minReachabilityMap := minReachMap }

/-- The recursive union-find `find` with path compression.  Returns the root
together with the updated parent array.  `x` beyond the array bound throws
(verbatim source message); exhausted fuel models the stack overflow JS
would reach on a cyclic parent array (proved unreachable where needed). -/
def find : ℕ → ℕ → List ℕ → Except String (ℕ × List ℕ)
  | 0, _, _ => Except.error "union-find fuel exhausted"
  | fuel + 1, x, parent =>
    if h : x < parent.length then
      let px := parent.get ⟨x, h⟩
      if px = x then Except.ok (x, parent)
      else do
        let rp ← find fuel px parent
        Except.ok (rp.1, rp.2.set x rp.1)
    else Except.error "find called with x greater than parent array length"

/-- Insertion into the component map (`Map<number, number[]>` with insertion
order): append the point to its root's group (keys are unique, so to the
first matching entry), creating the group at the end on first sight. -/
def insertGroup : List (ℕ × List ℕ) → ℕ → ℕ → List (ℕ × List ℕ)
  | [], k, p => [(k, [p])]
  | g :: gs, k, p =>
    if g.1 = k then (g.1, g.2 ++ [p]) :: gs else g :: insertGroup gs k p

/-- The union pass of `splitClusterAtEdge`: union the later edges of weight
`≤ distance` whose endpoints both lie in `points`. -/
def unionFold (points : List ℕ) (distance : ℚ) (laterEdges : List Edge)
    (ufLen : ℕ) (parent0 : List ℕ) : Except String (List ℕ) :=
  (laterEdges.filter (fun e => decide (e.w ≤ distance))).foldlM
    (fun parent e =>
      if e.s ∈ points ∧ e.d ∈ points then do
        let rx ← find ufLen e.s parent
        let ry ← find ufLen e.d rx.2
        if rx.1 ≠ ry.1 then
          Except.ok (ry.2.set ry.1 rx.1)
        else
          Except.ok ry.2
      else Except.ok parent)
    parent0

/-- The grouping pass of `splitClusterAtEdge`: group the points by their
union-find root, in point order. -/
def groupPoints (ufLen : ℕ) (points : List ℕ) (parent : List ℕ) :
    Except String (List (ℕ × List ℕ) × List ℕ) :=
  points.foldlM
    (fun (gp : List (ℕ × List ℕ) × List ℕ) p => do
      let r ← find ufLen p gp.2
      Except.ok (insertGroup gp.1 r.1 p, r.2))
    (([] : List (ℕ × List ℕ)), parent)

/-- `splitClusterAtEdge`: union the later edges of weight `≤ distance` whose
endpoints both lie in `points` over a fresh parent array of size
`this.sortedEdges.length + 1 = ufLen`, then group `points` by root.  Only
the weight of the removed edge is consulted (its endpoints are unused in
the source body). -/
def splitClusterAtEdge (points : List ℕ) (distance : ℚ) (laterEdges : List Edge)
    (ufLen : ℕ) : Except String (List (List ℕ)) := do
  let parent ← unionFold points distance laterEdges ufLen (List.range ufLen)
  let gp ← groupPoints ufLen points parent
  Except.ok (gp.1.map Prod.snd)

/-- `findClusterContainingPoints`: scan the hierarchy from newest to oldest
for the first cluster whose `children` contains every given point; the
index into the hierarchy list stands for the object reference. -/
def findClusterContainingPoints (points : List ℕ) (hierarchy : List Cluster) :
    Option ℕ :=
  ((List.range hierarchy.length).reverse).find? (fun i =>
    match hierarchy.get? i with
    | some c => points.all (fun p => p ∈ c.children)
    | none => false)

/-- One iteration of the edge loop of `buildClusterHierarchy` for the edge
`e` with remaining later edges `rest`; `mstEdges` is `this.sortedEdges`
(assigned to the raw MST by `fit` before this step) and `ufLen = mstEdges.length + 1`. -/
def hierarchyStep (mstEdges : List Edge) (minClusterSize : ℤ)
    (st : List Cluster × ℕ) (e : Edge) (rest : List Edge) :
    Except String (List Cluster × ℕ) := do
  let hierarchy := st.1
  let nextId := st.2
  match findClusterContainingPoints [e.s, e.d] hierarchy with
  | none => Except.error "parentCluster not found"
  | some pIdx =>
    let parentCluster := (hierarchy.get? pIdx).getD (createCluster [] 0 [] 0 0)
    if parentCluster.leftChildId.isSome then
      Except.ok (hierarchy, nextId)
    else do
      let components ← splitClusterAtEdge parentCluster.children e.w rest
        (mstEdges.length + 1)
      if components.length > 2 ∨
          (components.length < 2 ∧ components.all (fun c => c.length = 1)) then
        pure ()
      else if components.length = 0 then
        pure ()
      else if components.length = 2 then
        pure ()
      else
        Except.error "splitClusterAtEdge returned less or more than 2 components"
      match components with
      | [leftPoints, rightPoints] =>
        let leftCluster := createCluster leftPoints e.w mstEdges e.w nextId
        let rightCluster := createCluster rightPoints e.w mstEdges e.w (nextId + 1)
        let parent2 := { parentCluster with
          leftChildId :=
            if (leftPoints.length : ℤ) ≥ minClusterSize then some leftCluster.id
            else parentCluster.leftChildId
          rightChildId :=
            if (rightPoints.length : ℤ) ≥ minClusterSize then some rightCluster.id
            else parentCluster.rightChildId }
        Except.ok (hierarchy.set pIdx parent2 ++ [leftCluster, rightCluster], nextId + 2)
      | _ => Except.ok (hierarchy, nextId)

/-- The edge loop of `buildClusterHierarchy`: process the descending-sorted
edges in order; at each position the `sortedEdges.slice(index + 1)` passed
to the split is the remaining tail. -/
def hierarchyLoop (mstEdges : List Edge) (minClusterSize : ℤ) :
    List Edge → (List Cluster × ℕ) → Except String (List Cluster × ℕ)
  | [], st => Except.ok st
  | e :: rest, st => do
    let st2 ← hierarchyStep mstEdges minClusterSize st e rest
    hierarchyLoop mstEdges minClusterSize rest st2

/-- Step 3: `buildClusterHierarchy(mst)`.  The edges are sorted by weight
descending with a stable sort (the JS comparator `b[2] - a[2]`); the root
cluster is created from all `n = mst.length + 1` points with the first
sorted edge's weight as both its distance and its birth distance (an empty
MST would read `sortedEdges[0][2]` of `undefined`).  `nextId0` is the
current `this.nextClusterId`, which persists across fits. -/
def buildClusterHierarchy (mst : List Edge) (minClusterSize : ℤ) (nextId0 : ℕ) :
    Except String (List Cluster × ℕ) := do
  let n := mst.length + 1
  let sortedEdges := List.insertionSort (fun a b => b.w ≤ a.w) mst
  match sortedEdges.get? 0 with
  | none => Except.error "TypeError: undefined sorted edge"
  | some e0 =>
    let allPoints := List.range n
    let rootCluster := createCluster allPoints e0.w sortedEdges e0.w nextId0
    hierarchyLoop mst minClusterSize sortedEdges ([rootCluster], nextId0 + 1)

/-- `new Set(...)` of a list of point indices: first occurrences in order. -/
def jsSetList (l : List ℕ) : List ℕ :=
  l.foldl (fun acc x => if x ∈ acc then acc else acc ++ [x]) []

/-- `getClusterPoints`: the member set of a cluster (insertion order). -/
def getClusterPoints (c : Cluster) : List ℕ := jsSetList c.children

/-- Step 4: `condenseHierarchy` keeps the clusters with at least
`minClusterSize` distinct points, in order. -/
def condenseHierarchy (hierarchy : List Cluster) (minClusterSize : ℤ) : List Cluster :=
  hierarchy.filter (fun c => decide (((getClusterPoints c).length : ℤ) ≥ minClusterSize))

/-- `calculateClusterStability`:
`stability = 0 + (1 / leaveEdgeWeight - 1 / birthDistance) * points.size`
in JS arithmetic (so a zero `leaveEdgeWeight` gives `Infinity`, and a zero
`birthDistance` as well makes it `NaN`). -/
def calculateClusterStability (cluster : Cluster) (points : List ℕ) : JSN :=
  jadd (num 0)
    (jmul
      (jsub (jdiv (num 1) (num cluster.leaveEdgeWeight))
        (jdiv (num 1) (num cluster.birthDistance)))
      (num points.length))

/-- `calculateMembership`: `1 - epsilon_min / epsilon_max` with
`epsilon_min = minReachabilityMap.get(point)` and
`epsilon_max = maxEdgeWeight` (a missing map entry would poison the JS
arithmetic to `NaN`). -/
def calculateMembership (point : ℕ) (cluster : Cluster) : JSN :=
  match assocGet cluster.minReachabilityMap point with
  | some epsMin => jsub (num 1) (jdiv (num epsMin) (num cluster.maxEdgeWeight))
  | none => JSN.nan

/-- The child filter of `extractClusters`: every condensed cluster other
than the current one whose distance is not larger and whose members are all
members of the current one. -/
def childClustersOf (condensedHierarchy : List Cluster) (cluster : Cluster) :
    List Cluster :=
  condensedHierarchy.filter (fun c =>
    decide (c.id ≠ cluster.id) && decide (c.distance ≤ cluster.distance) &&
      c.children.all (fun p => decide (p ∈ cluster.children)))

/-- The recursive `processCluster` walk of `extractClusters`, rendered as a
depth-first worklist (children are processed, left to right, before the
remaining pending clusters — exactly the order of the source recursion, and
the `selected`/`discarded` state is threaded identically).  The first
component of the state is `selectedClusters` in insertion order (a JS `Set`
of object references; condensed clusters are identified by their unique
ids), the second is the `discardedClusters` id set.  Fuel models the call
stack; exhaustion (`none`) is distinct from every source error. -/
def processClusters (condensed : List Cluster) (mcs : ℤ) (skipRoot : Bool) :
    ℕ → (List Cluster × List ℕ) → List Cluster → Option (List Cluster × List ℕ)
  | _, st, [] => some st
  | 0, _, _ :: _ => none
  | fuel + 1, st, cluster :: pending =>
    let selected := st.1
    let discarded := st.2
    if cluster.id ∈ discarded then
      processClusters condensed mcs skipRoot fuel st pending
    else
      let clusterPoints := getClusterPoints cluster
      let stability0 := calculateClusterStability cluster clusterPoints
      let childClusters := childClustersOf condensed cluster
      let childrenStability := childClusters.foldl
        (fun sacc c => JSN.jadd sacc (calculateClusterStability c (getClusterPoints c)))
        (JSN.num 0)
      let stability :=
        if cluster.id = 0 ∧ skipRoot then JSN.num 0 else stability0
      if (JSN.jgt stability childrenStability
            && decide ((clusterPoints.length : ℤ) ≥ mcs))
          || childClusters.all (fun c => decide ((c.children.length : ℤ) < mcs)) then
        let selected2 :=
          if selected.any (fun c => decide (c.id = cluster.id)) then selected
          else selected ++ [cluster]
        processClusters condensed mcs skipRoot fuel
          (selected2, discarded ++ childClusters.map Cluster.id) pending
      else
        let discarded2 := discarded ++ [cluster.id]
        let recList := childClusters.filter (fun c =>
          decide ((c.size : ℤ) ≥ mcs) && !(discarded2.contains c.id))
        processClusters condensed mcs skipRoot fuel (selected, discarded2)
          (recList ++ pending)

/-- One iteration of the `selectedClusters.forEach` of
`assignClusterLabels`: a cluster with at least `minClusterSize` distinct
points gets the current label on all its points (with their memberships as
probabilities) and the label counter advances. -/
def assignStep (mcs : ℤ) (acc : List ℤ × List JSN × ℤ) (cluster : Cluster) :
    List ℤ × List JSN × ℤ :=
  let currentLabel := acc.2.2
  let points := getClusterPoints cluster
  if (points.length : ℤ) ≥ mcs then
    let upd := points.foldl
      (fun (lp : List ℤ × List JSN) p =>
        (lp.1.set p currentLabel, lp.2.set p (calculateMembership p cluster)))
      (acc.1, acc.2.1)
    (upd.1, upd.2, currentLabel + 1)
  else (acc.1, acc.2.1, currentLabel)

/-- `assignClusterLabels`: labels start at `-1`, probabilities at `0`. -/
def assignClusterLabels (selectedClusters : List Cluster) (n : ℕ) (mcs : ℤ) :
    List ℤ × List JSN :=
  let res := selectedClusters.foldl (assignStep mcs)
    (List.replicate n (-1 : ℤ), List.replicate n (JSN.num 0), (0 : ℤ))
  (res.1, res.2.1)

/-- Invariant of the label-assignment loop: lengths are `n`, the label
counter is nonnegative, positions still labelled `-1` hold probability 0,
and any other labelled position holds the membership of some
at-least-`minClusterSize` cluster of `sel` containing it. -/
def assignInv (sel : List Cluster) (n : ℕ) (mcs : ℤ)
    (acc : List ℤ × List JSN × ℤ) : Prop :=
  acc.1.length = n ∧ acc.2.1.length = n ∧ 0 ≤ acc.2.2 ∧
  (∀ i : ℕ, acc.1.get? i = some (-1) → acc.2.1.get? i = some (JSN.num 0)) ∧
  ∀ (i : ℕ) (v : ℤ), acc.1.get? i = some v → v ≠ -1 →
    ∃ c : Cluster, c ∈ sel ∧ i ∈ getClusterPoints c ∧
      ((getClusterPoints c).length : ℤ) ≥ mcs ∧
      acc.2.1.get? i = some (calculateMembership i c)

/-- Step 5: `extractClusters` runs the selection walk from the first
condensed cluster (if any) and then assigns labels and probabilities. -/
def extractClusters (condensedHierarchy : List Cluster) (n : ℕ) (mcs : ℤ)
    (skipRoot : Bool) : Option (List ℤ × List JSN) := do
  let st ← match condensedHierarchy with
    | [] => some (([] : List Cluster), ([] : List ℕ))
    | c0 :: _ =>
      processClusters condensedHierarchy mcs skipRoot
        ((condensedHierarchy.length + 1) * (condensedHierarchy.length + 1))
        ([], []) [c0]
  some (assignClusterLabels st.1 n mcs)

/-- The observable state of an `HDBSCAN` instance (see the header for the
omitted write-only fields). -/
structure HState where
  debugMode : Bool
  minClusterSize : ℤ
  minSamples : ℤ
  labels_ : List ℤ
  probabilities_ : List JSN
  nextClusterId : ℕ
  sortedEdges : List Edge
  shouldSkipRootCluster : Bool
  mutualReachabilityDistance : List (List ℚ)
deriving Repr, DecidableEq

/-- The recognized constructor options (absent = use the default). -/
structure HParams where
  debugMode : Option Bool := none
  minClusterSize : Option ℤ := none
  minSamples : Option ℤ := none
  shouldSkipRootCluster : Option Bool := none

/-- The constructor: defaults `minClusterSize = 5`,
`minSamples = minClusterSize`, `debugMode = false`,
`shouldSkipRootCluster = true`; throws (in this order) when the effective
`minClusterSize ≤ 0` or the effective `minSamples ≤ 0`.  The assignment
`this.minSamples = minSamples || minClusterSize` is transcribed with the JS
falsiness test (dead here, since `minSamples > 0` was just checked). -/
def hdbscanNew (params : HParams) : Except String HState :=
  let minClusterSize := params.minClusterSize.getD 5
  let minSamples := params.minSamples.getD minClusterSize
  if minClusterSize ≤ 0 then Except.error "minClusterSize must be greater than 0"
  else if minSamples ≤ 0 then Except.error "minSamples must be greater than 0"
  else Except.ok
    { debugMode := params.debugMode.getD false
      minClusterSize := minClusterSize
      minSamples := if minSamples = 0 then minClusterSize else minSamples
      labels_ := []
      probabilities_ := []
      nextClusterId := 0
      sortedEdges := []
      shouldSkipRootCluster := params.shouldSkipRootCluster.getD true
      mutualReachabilityDistance := [] }

/-- Lift a fuel-modelled computation into the error monad; `none`
(nontermination in JS) gets a message distinct from every source throw. -/
def fromOption {α : Type} (o : Option α) (e : String) : Except String α :=
  match o with
  | some a => Except.ok a
  | none => Except.error e

/-- The public `fit`: the five pipeline stages, with `this.sortedEdges`
assigned the raw MST before the hierarchy is built.  The returned state
carries the new labels, probabilities and the advanced `nextClusterId`. -/
def fit (s : HState) (data : List (List ℚ)) : Except String HState := do
  let mutualReachabilityDist ← computeMutualReachabilityDistance s.minSamples data
  let mst ← fromOption (buildMinimumSpanningTree mutualReachabilityDist)
    "nontermination: MST selection failed"
  let hn ← buildClusterHierarchy mst s.minClusterSize s.nextClusterId
  let condensedHierarchy := condenseHierarchy hn.1 s.minClusterSize
  let lp ← fromOption
    (extractClusters condensedHierarchy data.length s.minClusterSize
      s.shouldSkipRootCluster)
    "nontermination: extraction fuel exhausted"
  Except.ok { s with
    labels_ := lp.1
    probabilities_ := lp.2
    nextClusterId := hn.2
    sortedEdges := mst
    mutualReachabilityDistance := mutualReachabilityDist }

/-! ### Spec-side definition for the refinement claim about child selection

The extraction claim compares the implementation's subset/distance filter
against "the node's direct hierarchical children surviving condensation";
the following definition renders those words (and nothing of the
implementation's filter). -/

/-- The direct hierarchical children of `c` that survived condensation:
the condensed clusters recorded in `c`'s child links. -/
def specDirectChildren (condensedHierarchy : List Cluster) (c : Cluster) :
    List Cluster :=
  condensedHierarchy.filter (fun x =>
    decide (c.leftChildId = some x.id) || decide (c.rightChildId = some x.id))

/-! ### Concrete inputs used by counterexamples and witnesses -/

/-- Constructor arguments `minClusterSize = 3`, `minSamples = 1`. -/
def P31 : HParams := { minClusterSize := some 3, minSamples := some 1 }

/-- The freshly constructed instance for `P31`. -/
def S31 : HState :=
  { debugMode := false
    minClusterSize := 3
    minSamples := 1
    labels_ := []
    probabilities_ := []
    nextClusterId := 0
    sortedEdges := []
    shouldSkipRootCluster := true
    mutualReachabilityDistance := [] }

/-- The freshly constructed instance for `minClusterSize = 3` (so
`minSamples` defaults to 3). -/
def S33 : HState :=
  { S31 with minSamples := 3 }

/-- Five 1-dimensional points: a tight triple `0, 1, 2` and a loose pair
`12, 13.1` far away. -/
def D2 : List (List ℚ) := [[0], [1], [2], [12], [131/10]]

/-- Five identical 1-dimensional points. -/
def Ddup : List (List ℚ) := [[7], [7], [7], [7], [7]]

/-- Nine 1-dimensional points: two tight triples `0,1,2` and `10,11,12`
forming one group of six, and a distant triple `100,101,102`. -/
def D7 : List (List ℚ) := [[0], [1], [2], [10], [11], [12], [100], [101], [102]]

/-- The MST that `buildMinimumSpanningTree` produces for `D2` (checked in
the theorems below). -/
def mstD2 : List Edge := [⟨0, 1, 1⟩, ⟨1, 2, 1⟩, ⟨2, 3, 100⟩, ⟨3, 4, 121/100⟩]

/-- Two groups of three identical points each: every in-group mutual
reachability is 0, so both group clusters have `leaveEdgeWeight = 0` while
being born at the inter-group distance 100. -/
def Ddeg : List (List ℚ) := [[0], [0], [0], [10], [10], [10]]

/-!  ### Infrastructure for the safety analysis of the hierarchy builder

The MST edge list emitted by Prim's loop has the shape captured by
`primOK`: each edge goes from an already-visited vertex to a fresh one.
From that shape, `rankOf` (discovery index) and the descendant test
`descOf` (with explicit fuel `descend`) witness that removing one tree
edge separates its endpoints: `descOf` is constant across every other
tree edge but differs on the removed edge's endpoints. -/

/-- The Prim emission shape: each edge leads from a visited vertex to a
fresh vertex below `n`. -/
def primOK (n : ℕ) : List ℕ → List Edge → Prop
  | _, [] => True
  | visited, e :: rest =>
    e.s ∈ visited ∧ e.d ∉ visited ∧ e.d < n ∧ primOK n (e.d :: visited) rest

/-- Discovery rank of a vertex in an edge list: `i + 1` for the
destination of the first edge `i` reaching it, 0 for vertices that are
never a destination (the start vertex). -/
def rankOf : List Edge → ℕ → ℕ
  | [], _ => 0
  | e :: rest, x =>
    if e.d = x then 1
    else if rankOf rest x = 0 then 0 else rankOf rest x + 1

/-- Fueled descendant test: `x` is `d0` or the destination of an edge
whose source is a descendant of `d0`. -/
def descend (es : List Edge) (d0 : ℕ) : ℕ → ℕ → Bool
  | 0, x => decide (x = d0)
  | fuel + 1, x =>
    decide (x = d0) ||
      (match es.find? (fun e => decide (e.d = x)) with
       | some e => descend es d0 fuel e.s
       | none => false)

/-- The descendant test with sufficient fuel. -/
def descOf (es : List Edge) (d0 x : ℕ) : Bool := descend es d0 es.length x

/-- Soundness of a union-find parent array with respect to a vertex
colouring `f`: well-sized, in-bounds, and parent links preserve `f`. -/
def UFok (n : ℕ) (f : ℕ → Bool) (p : List ℕ) : Prop :=
  p.length = n ∧ ∀ j, ∀ h : j < p.length, p.get ⟨j, h⟩ < n ∧ f (p.get ⟨j, h⟩) = f j

/-- The fold function of `unionFold`, named for the safety lemmas
(definitionally equal to the inline lambda). -/
def unionStep (points : List ℕ) (ufLen : ℕ) (parent : List ℕ) (e : Edge) :
    Except String (List ℕ) :=
  if e.s ∈ points ∧ e.d ∈ points then do
    let rx ← find ufLen e.s parent
    let ry ← find ufLen e.d rx.2
    if rx.1 ≠ ry.1 then
      Except.ok (ry.2.set ry.1 rx.1)
    else
      Except.ok ry.2
  else Except.ok parent

/-- The fold function of `groupPoints`, named for the safety lemmas
(definitionally equal to the inline lambda). -/
def groupStep (ufLen : ℕ) (gp : List (ℕ × List ℕ) × List ℕ) (p : ℕ) :
    Except String (List (ℕ × List ℕ) × List ℕ) := do
  let r ← find ufLen p gp.2
  Except.ok (insertGroup gp.1 r.1 p, r.2)

/-- Invariant of the hierarchy list relative to `n = mst.length + 1`: the
root sits at index 0 with the full point range as members, and every
cluster's members are point indices below `n`. -/
def INVn (n : ℕ) (hier : List Cluster) : Prop :=
  (∃ c₀, hier.get? 0 = some c₀ ∧ c₀.children = List.range n) ∧
  ∀ c ∈ hier, ∀ q ∈ c.children, q < n

/-!  ## Theorems  -/

/-- Flattening a present optional value. -/
theorem join_some {α : Type} (o : Option α) : (some o).join = o := rfl

/-- Reduction of an `Except` bind on a raised error. -/
theorem error_bind {α β : Type} (e : String) (f : α → Except String β) :
    (Except.error e : Except String α) >>= f = Except.error e := rfl

/-- Reduction of an `Except` bind on a successful value. -/
theorem ok_bind {α β : Type} (a : α) (f : α → Except String β) :
    (Except.ok a : Except String α) >>= f = f a := rfl

/-- C9: the constructor fails exactly when the effective `minClusterSize`
(default 5) or the effective `minSamples` (default: the effective
`minClusterSize`) is `≤ 0`; on success the instance starts with empty
`labels_` and `probabilities_` (nothing is populated before a `fit`). -/
theorem constructor_validation (params : HParams) :
    ((hdbscanNew params).isOk = false ↔
      params.minClusterSize.getD 5 ≤ 0 ∨
        params.minSamples.getD (params.minClusterSize.getD 5) ≤ 0) ∧
    ∀ s : HState, hdbscanNew params = Except.ok s →
      s.labels_ = [] ∧ s.probabilities_ = [] := by
  unfold hdbscanNew
  dsimp only
  constructor
  · split
    next h => simp only [Except.isOk, Except.toBool]; simpa using Or.inl h
    next h =>
      split
      next h2 => simp only [Except.isOk, Except.toBool]; simpa using Or.inr h2
      next h2 =>
        simp only [Except.isOk, Except.toBool]
        simp only [Bool.true_eq_false, false_iff]
        intro hor
        rcases hor with h3 | h3
        · exact h h3
        · exact h2 h3
  · intro s hs
    split at hs
    · exact absurd hs (by simp)
    · split at hs
      · exact absurd hs (by simp)
      · cases hs; exact ⟨rfl, rfl⟩

/-- C5: for every single-point dataset and every instance, the
core-distance computation reads array index
`min(minSamples - 1, -1) = -1`, i.e. `undefined`, so
`computeMutualReachabilityDistance` raises a TypeError instead of returning
the 1×1 zero matrix, and `fit` propagates the failure instead of returning
`labels_ = [-1]`. -/
theorem fit_single_point_raises (s : HState) (p : List ℚ) :
    computeMutualReachabilityDistance s.minSamples [p] =
        Except.error "TypeError: undefined core distance" ∧
      fit s [p] = Except.error "TypeError: undefined core distance" := by
  have hcore : coreDistanceOf s.minSamples [p] 0 = none := by
    simp [coreDistanceOf, jsGet]
  have hmat : computeMutualReachabilityDistance s.minSamples [p] =
      Except.error "TypeError: undefined core distance" := by
    unfold computeMutualReachabilityDistance
    simp only [List.length_singleton, show List.range 1 = [0] from rfl]
    rw [show coresLoop s.minSamples [p] [0] =
        Except.error "TypeError: undefined core distance" from by
      unfold coresLoop; rw [hcore]]
    rfl
  refine ⟨hmat, ?_⟩
  unfold fit
  rw [hmat]
  rfl

/-- C4 (counterexample): on the dataset `Ddeg` with `minClusterSize = 2`,
`minSamples = 2`, extraction considers the condensed cluster with id 1
(it is in the computed child set of the root), its `leaveEdgeWeight`
(ε_min) is 0, and `calculateClusterStability` yields `Infinity` — not 0 as
the claim demands for degenerate clusters. -/
theorem stability_degenerate_cex :
    (do
      let m ← (computeMutualReachabilityDistance 2 Ddeg).toOption
      let mst ← buildMinimumSpanningTree m
      let hn ← (buildClusterHierarchy mst 2 0).toOption
      let condensed := condenseHierarchy hn.1 2
      let root ← condensed.get? 0
      let c ← condensed.get? 1
      pure (decide (c ∈ childClustersOf condensed root), c.leaveEdgeWeight,
        calculateClusterStability c (getClusterPoints c))) =
      some (true, 0, JSN.posInf) ∧ JSN.posInf ≠ JSN.num 0 := by
  exact ⟨by with_unfolding_all rfl, by simp⟩

/-- C4 (amended): for every cluster whose `leaveEdgeWeight` (ε_min) and
`birthDistance` (ε_max) are nonzero, the computed stability is exactly
`|points| * (1/ε_min - 1/ε_max)` as a finite number; a zero ε_min instead
produces an IEEE special value (`Infinity`, or `NaN` when ε_max is also 0),
never the 0 the specification prescribes. -/
theorem stability_formula (cluster : Cluster) (points : List ℕ)
    (h1 : cluster.leaveEdgeWeight ≠ 0) (h2 : cluster.birthDistance ≠ 0) :
    calculateClusterStability cluster points =
      JSN.num ((1 / cluster.leaveEdgeWeight - 1 / cluster.birthDistance) *
        (points.length : ℚ)) := by
  simp [calculateClusterStability, JSN.jdiv, JSN.jsub, JSN.jmul, JSN.jadd, h1, h2]

/-- The core-distance loop succeeds pointwise when every index does. -/
theorem coresLoop_ok (ms : ℤ) (data : List (List ℚ)) (g : ℕ → ℚ) :
    ∀ l : List ℕ, (∀ i ∈ l, coreDistanceOf ms data i = some (g i)) →
      coresLoop ms data l = Except.ok (l.map g)
  | [], _ => rfl
  | i :: rest, h => by
    unfold coresLoop
    rw [h i (List.mem_cons_self i rest),
      coresLoop_ok ms data g rest (fun a ha => h a (List.mem_cons_of_mem i ha))]
    rfl

/-- Dropping one present index from `range n` leaves `n - 1` elements. -/
theorem filter_ne_range_length (i : ℕ) :
    ∀ n : ℕ, i < n →
      ((List.range n).filter (fun j => decide (i ≠ j))).length = n - 1 := by
  intro n
  induction n with
  | zero => intro h; omega
  | succ m ih =>
    intro hi
    rw [List.range_succ, List.filter_append, List.length_append]
    by_cases hcase : i < m
    · rw [ih hcase]
      have hne : i ≠ m := by omega
      simp [hne]
      omega
    · have him : i = m := by omega
      have hall : (List.range m).filter (fun j => decide (i ≠ j)) = List.range m := by
        rw [List.filter_eq_self]
        intro a ha
        have : a < m := List.mem_range.mp ha
        simp
        omega
      rw [hall]
      simp [him, List.length_range]

/-- Success and characterization of the core distance: for `minSamples ≥ 1`
and `n ≥ 2`, point `i`'s core distance is the entry at index
`min(minSamples - 1, n - 2)` of an ascending-sorted permutation of the
squared distances from `i` to all other points. -/
theorem coreDistanceOf_spec (ms : ℤ) (data : List (List ℚ)) (i : ℕ)
    (h1 : 1 ≤ ms) (h2 : 2 ≤ data.length) (hi : i < data.length) :
    ∃ c : ℚ, coreDistanceOf ms data i = some c ∧
      ∃ sorted : List ℚ,
        sorted.Perm (((List.range data.length).filter (fun j => decide (i ≠ j))).map
          (fun j => euclideanDistance (data.getD i []) (data.getD j []))) ∧
        sorted.Sorted (· ≤ ·) ∧
        sorted.get? (min (ms - 1) ((data.length : ℤ) - 2)).toNat = some c := by
  have hflen : ((List.range data.length).filter (fun j => decide (i ≠ j))).length =
      data.length - 1 := filter_ne_range_length i data.length hi
  have hdlen : (((List.range data.length).filter (fun j => decide (i ≠ j))).map
      (fun j => euclideanDistance (data.getD i []) (data.getD j []))).length =
      data.length - 1 := by rw [List.length_map, hflen]
  unfold coreDistanceOf
  dsimp only
  rw [hdlen]
  have hcast : ((data.length - 1 : ℕ) : ℤ) - 1 = (data.length : ℤ) - 2 := by omega
  rw [hcast]
  have hnonneg : ¬ (min (ms - 1) ((data.length : ℤ) - 2) < 0) := by omega
  unfold jsGet
  rw [if_neg hnonneg]
  have hslen : (List.insertionSort (· ≤ ·)
      (((List.range data.length).filter (fun j => decide (i ≠ j))).map
        (fun j => euclideanDistance (data.getD i []) (data.getD j [])))).length =
      data.length - 1 := by rw [List.length_insertionSort, hdlen]
  have hidx : (min (ms - 1) ((data.length : ℤ) - 2)).toNat <
      (List.insertionSort (· ≤ ·)
        (((List.range data.length).filter (fun j => decide (i ≠ j))).map
          (fun j => euclideanDistance (data.getD i []) (data.getD j [])))).length := by
    rw [hslen]; omega
  refine ⟨_, List.get?_eq_get hidx, _, List.perm_insertionSort _ _,
    List.sorted_insertionSort _ _, List.get?_eq_get hidx⟩

/-- C1 (amended): for `minSamples ≥ 1` and at least two points,
`computeMutualReachabilityDistance` succeeds and returns the matrix
`M[i][j] = max(sqdist(i, j), core(i), core(j))` where `sqdist` is the
SQUARED Euclidean distance computed by `euclideanDistance` and `core(i)`
is the `k`-th entry (0-based) of the ascending-sorted squared distances
from `i` to the other points, with `k = min(minSamples - 1, n - 2)`. -/
theorem computeMutualReachability_spec (ms : ℤ) (data : List (List ℚ))
    (h1 : 1 ≤ ms) (h2 : 2 ≤ data.length) :
    ∃ (M : List (List ℚ)) (core : ℕ → ℚ),
      computeMutualReachabilityDistance ms data = Except.ok M ∧
      (∀ i, i < data.length → ∃ sorted : List ℚ,
        sorted.Perm (((List.range data.length).filter (fun j => decide (i ≠ j))).map
          (fun j => euclideanDistance (data.getD i []) (data.getD j []))) ∧
        sorted.Sorted (· ≤ ·) ∧
        sorted.get? (min (ms - 1) ((data.length : ℤ) - 2)).toNat = some (core i)) ∧
      ∀ i, i < data.length → ∀ j, j < data.length →
        (M.get? i).bind (fun row => row.get? j) =
          some (max (euclideanDistance (data.getD i []) (data.getD j []))
            (max (core i) (core j))) := by
  classical
  set n := data.length with hn
  set core : ℕ → ℚ := fun i => (coreDistanceOf ms data i).getD 0 with hcore
  have hsome : ∀ i ∈ List.range n, coreDistanceOf ms data i = some (core i) := by
    intro i hi
    obtain ⟨c, hc, _⟩ := coreDistanceOf_spec ms data i h1 h2 (List.mem_range.mp hi)
    rw [hc, hcore]
    simp [hc]
  have hloop : coresLoop ms data (List.range n) =
      Except.ok ((List.range n).map core) :=
    coresLoop_ok ms data core (List.range n) hsome
  have hgetD : ∀ i, i < n → ((List.range n).map core).getD i 0 = core i := by
    intro i hi
    unfold List.getD
    rw [List.get?_map, List.get?_range hi]
    rfl
  have hmat : computeMutualReachabilityDistance ms data = Except.ok
      ((List.range n).map (fun i => (List.range n).map (fun j =>
        max (euclideanDistance (data.getD i []) (data.getD j []))
          (max ((((List.range n).map core)).getD i 0)
            ((((List.range n).map core)).getD j 0))))) := by
    unfold computeMutualReachabilityDistance
    dsimp only
    rw [hloop]
    rfl
  refine ⟨_, core, hmat, ?_, ?_⟩
  · intro i hi
    obtain ⟨c, hc, sorted, hperm, hsorted, hget⟩ :=
      coreDistanceOf_spec ms data i h1 h2 hi
    refine ⟨sorted, hperm, hsorted, ?_⟩
    rw [hget]
    have : core i = c := by rw [hcore]; simp [hc]
    rw [this]
  · intro i hi j hj
    rw [List.get?_map, List.get?_range hi]
    simp only [Option.map_some', Option.some_bind]
    rw [List.get?_map, List.get?_range hj]
    simp only [Option.map_some']
    rw [hgetD i hi, hgetD j hj]

/-- Witness for `computeMutualReachability_spec` at `minSamples = 1`,
`data = D2`. -/
theorem computeMutualReachability_spec_witness :
    (1 : ℤ) ≤ 1 ∧ 2 ≤ D2.length ∧
      ∃ (M : List (List ℚ)) (core : ℕ → ℚ),
        computeMutualReachabilityDistance 1 D2 = Except.ok M ∧
        (∀ i, i < D2.length → ∃ sorted : List ℚ,
          sorted.Perm (((List.range D2.length).filter (fun j => decide (i ≠ j))).map
            (fun j => euclideanDistance (D2.getD i []) (D2.getD j []))) ∧
          sorted.Sorted (· ≤ ·) ∧
          sorted.get? (min ((1 : ℤ) - 1) ((D2.length : ℤ) - 2)).toNat =
            some (core i)) ∧
        ∀ i, i < D2.length → ∀ j, j < D2.length →
          (M.get? i).bind (fun row => row.get? j) =
            some (max (euclideanDistance (D2.getD i []) (D2.getD j []))
              (max (core i) (core j))) :=
  ⟨by decide, by decide, computeMutualReachability_spec 1 D2 (by decide) (by decide)⟩

/-- C2 (counterexample): on `D2` (`minClusterSize = 3`, `minSamples = 1`)
the first `fit` labels the loose pair as noise, but a second `fit` on the
same instance labels every point 0: `nextClusterId` persists across fits,
so in the second run the root cluster's id is no longer 0 and the
root-skip test `cluster.id === 0` fails to zero its stability. -/
theorem fit_not_idempotent_cex :
    hdbscanNew P31 = Except.ok S31 ∧
    (fit S31 D2).toOption.map (fun s => s.labels_) = some [0, 0, 0, -1, -1] ∧
    ((fit S31 D2).bind (fun s1 => fit s1 D2)).toOption.map (fun s => s.labels_) =
      some [0, 0, 0, 0, 0] ∧
    ([0, 0, 0, -1, -1] : List ℤ) ≠ [0, 0, 0, 0, 0] := by
  refine ⟨by with_unfolding_all rfl, by with_unfolding_all rfl,
    by with_unfolding_all rfl, by decide⟩

/-- C2 (amended): `fit` is deterministic across instances — two freshly
constructed instances with the same parameters produce identical results on
the same data (the embedding exhibits `fit` as a pure function of the
instance state and the data).  Idempotence on a single instance fails, as
the counterexample shows, because `nextClusterId` survives between fits. -/
theorem fit_deterministic_fresh (params : HParams) (data : List (List ℚ))
    (s t : HState) (hs : hdbscanNew params = Except.ok s)
    (ht : hdbscanNew params = Except.ok t) : fit s data = fit t data := by
  rw [hs] at ht
  injection ht with h
  rw [h]

/-- Witness for `fit_deterministic_fresh` at `P31`, `D2`. -/
theorem fit_deterministic_fresh_witness :
    hdbscanNew P31 = Except.ok S31 ∧ fit S31 D2 = fit S31 D2 :=
  ⟨by with_unfolding_all rfl,
    fit_deterministic_fresh P31 D2 S31 S31 (by with_unfolding_all rfl)
      (by with_unfolding_all rfl)⟩

/-- C1 (counterexample): `euclideanDistance` returns the SQUARED Euclidean
distance.  For the 1-dimensional points `0` and `2` it returns 4, whereas
the true Euclidean distance `sqrt((0-2)^2)` is 2. -/
theorem euclideanDistance_squared_cex :
    euclideanDistance [(0 : ℚ)] [2] = 4 ∧ euclideanDistance [(0 : ℚ)] [2] ≠ 2 :=
  ⟨by with_unfolding_all rfl, by with_unfolding_all decide⟩

/-- C6 (counterexample): for the hierarchy built from `D2`'s MST
(`minClusterSize = 3`) the root cluster records a left child (the tight
triple) but no right child: the loose pair is below `minClusterSize`, and
the source sets each child link independently. -/
theorem hierarchy_single_child_cex :
    (computeMutualReachabilityDistance 1 D2).toOption.bind
        buildMinimumSpanningTree = some mstD2 ∧
    ((buildClusterHierarchy mstD2 3 0).toOption.bind (fun hn =>
        (hn.1.get? 0).map (fun c => (c.leftChildId, c.rightChildId)))) =
      some (some 1, none) :=
  ⟨by with_unfolding_all rfl, by with_unfolding_all rfl⟩

/-- Appending a point to its group adds exactly that point to the grouped
contents (up to reordering). -/
theorem insertGroup_flatten (k p : ℕ) :
    ∀ groups : List (ℕ × List ℕ),
      ((insertGroup groups k p).map Prod.snd).flatten.Perm
        ((groups.map Prod.snd).flatten ++ [p])
  | [] => by simp [insertGroup]
  | g :: gs => by
    unfold insertGroup
    by_cases hg : g.1 = k
    · rw [if_pos hg]
      simp only [List.map_cons, List.flatten_cons, List.append_assoc]
      exact List.Perm.append_left g.2 List.perm_append_comm
    · rw [if_neg hg]
      simp only [List.map_cons, List.flatten_cons, List.append_assoc]
      exact List.Perm.append_left g.2 (insertGroup_flatten k p gs)

/-- The grouping pass distributes exactly the given points over the groups:
the flattened result is a permutation of the initial contents plus the
points. -/
theorem groupPoints_flatten (ufLen : ℕ) :
    ∀ (pts : List ℕ) (groups : List (ℕ × List ℕ)) (parent : List ℕ)
      (res : List (ℕ × List ℕ) × List ℕ),
      pts.foldlM
        (fun (gp : List (ℕ × List ℕ) × List ℕ) p => do
          let r ← find ufLen p gp.2
          Except.ok (insertGroup gp.1 r.1 p, r.2))
        (groups, parent) = Except.ok res →
      (res.1.map Prod.snd).flatten.Perm ((groups.map Prod.snd).flatten ++ pts)
  | [], groups, parent, res => by
    intro h
    simp only [List.foldlM_nil] at h
    cases h
    simp
  | p :: rest, groups, parent, res => by
    intro h
    rw [List.foldlM_cons] at h
    cases hfind : find ufLen p parent with
    | error e =>
      rw [hfind, error_bind, error_bind] at h
      exact Except.noConfusion h
    | ok r =>
      rw [hfind, ok_bind, ok_bind] at h
      have ih := groupPoints_flatten ufLen rest (insertGroup groups r.1 p) r.2 res h
      have step : (((insertGroup groups r.1 p).map Prod.snd).flatten ++ rest).Perm
          ((groups.map Prod.snd).flatten ++ (p :: rest)) := by
        have h2 := (insertGroup_flatten r.1 p groups).append_right rest
        rw [List.append_assoc] at h2
        exact h2
      exact ih.trans step

/-- C6 (amended): a child link is recorded only for a split side with at
least `minClusterSize` points, so one link can be present without the
other; but the components produced by every successful split are jointly a
permutation of the parent's member list, hence (for duplicate-free members)
pairwise disjoint with union exactly the parent's member set — in
particular, whenever both children are recorded their member sets are
disjoint and partition the parent's. -/
theorem splitClusterAtEdge_partitions (points : List ℕ) (distance : ℚ)
    (laterEdges : List Edge) (ufLen : ℕ) (comps : List (List ℕ))
    (h : splitClusterAtEdge points distance laterEdges ufLen = Except.ok comps) :
    comps.flatten.Perm points ∧
      (points.Nodup → comps.Pairwise List.Disjoint ∧
        ∀ x, (∃ c ∈ comps, x ∈ c) ↔ x ∈ points) := by
  unfold splitClusterAtEdge at h
  cases hu : unionFold points distance laterEdges ufLen (List.range ufLen) with
  | error e =>
    rw [hu, error_bind] at h
    exact Except.noConfusion h
  | ok parent =>
    rw [hu, ok_bind] at h
    cases hg : groupPoints ufLen points parent with
    | error e =>
      rw [hg, error_bind] at h
      exact Except.noConfusion h
    | ok gp =>
      rw [hg, ok_bind] at h
      injection h with h2
      subst h2
      have hperm : ((gp.1.map Prod.snd).flatten).Perm (([] : List ℕ) ++ points) :=
        groupPoints_flatten ufLen points [] parent gp hg
      rw [List.nil_append] at hperm
      refine ⟨hperm, fun hnd => ?_⟩
      have hjoin : (gp.1.map Prod.snd).flatten.Nodup := hperm.nodup_iff.mpr hnd
      have hdis := (List.nodup_flatten.mp hjoin).2
      refine ⟨hdis, fun x => ?_⟩
      constructor
      · rintro ⟨c, hc, hx⟩
        exact hperm.mem_iff.mp (List.mem_flatten.mpr ⟨c, hc, hx⟩)
      · intro hx
        exact List.mem_flatten.mp (hperm.mem_iff.mpr hx)

/-- Witness for `splitClusterAtEdge_partitions`: the root split of `D2`
(removing the weight-100 edge) yields components `[0,1,2]` and `[3,4]`. -/
theorem splitClusterAtEdge_partitions_witness :
    splitClusterAtEdge [0, 1, 2, 3, 4] 100
        [⟨3, 4, 121/100⟩, ⟨0, 1, 1⟩, ⟨1, 2, 1⟩] 5 =
      Except.ok [[0, 1, 2], [3, 4]] ∧
    (([[0, 1, 2], [3, 4]] : List (List ℕ)).flatten.Perm [0, 1, 2, 3, 4] ∧
      (([0, 1, 2, 3, 4] : List ℕ).Nodup →
        ([[0, 1, 2], [3, 4]] : List (List ℕ)).Pairwise List.Disjoint ∧
        ∀ x, (∃ c ∈ ([[0, 1, 2], [3, 4]] : List (List ℕ)), x ∈ c) ↔
          x ∈ ([0, 1, 2, 3, 4] : List ℕ))) :=
  ⟨by with_unfolding_all rfl,
    splitClusterAtEdge_partitions [0, 1, 2, 3, 4] 100
      [⟨3, 4, 121/100⟩, ⟨0, 1, 1⟩, ⟨1, 2, 1⟩] 5 [[0, 1, 2], [3, 4]]
      (by with_unfolding_all rfl)⟩

/-- C7 (counterexample): on `D7` (`minClusterSize = 3`, `minSamples = 1`)
the child set the extraction filter computes for the root consists of the
clusters with ids 1, 2, 3, 4, while the root's direct hierarchical children
surviving condensation are only 1 and 2 (3 and 4 are children of 1): the
filter ranges over all condensed descendants, not only direct children. -/
theorem extraction_children_filter_cex :
    (do
      let m ← (computeMutualReachabilityDistance 1 D7).toOption
      let mst ← buildMinimumSpanningTree m
      let hn ← (buildClusterHierarchy mst 3 0).toOption
      let condensed := condenseHierarchy hn.1 3
      let root ← condensed.get? 0
      pure ((childClustersOf condensed root).map Cluster.id,
        (specDirectChildren condensed root).map Cluster.id)) =
      some ([1, 2, 3, 4], [1, 2]) ∧
    ([1, 2, 3, 4] : List ℕ) ≠ [1, 2] :=
  ⟨by with_unfolding_all rfl, by decide⟩

/-- C7 (amended): the computed child set is the set of ALL condensed proper
descendants (members a subset, distance not larger), and the stability sum
during extraction ranges over all of them.  Concretely on `D7`: cluster 3
is recorded as the left child of cluster 1, which is itself the left child
of the root — yet cluster 3 (a grandchild) appears in the root's computed
child set alongside the direct children 1 and 2. -/
theorem extraction_children_filter_descendants :
    (do
      let m ← (computeMutualReachabilityDistance 1 D7).toOption
      let mst ← buildMinimumSpanningTree m
      let hn ← (buildClusterHierarchy mst 3 0).toOption
      let condensed := condenseHierarchy hn.1 3
      let root ← condensed.get? 0
      pure ((childClustersOf condensed root).map Cluster.id,
        root.leftChildId,
        (condensed.find? (fun c => decide (c.id = 1))).map Cluster.leftChildId)) =
      some ([1, 2, 3, 4], some 1, some (some 3)) ∧
    (3 : ℕ) ∈ [1, 2, 3, 4] ∧ (3 : ℕ) ∉ [1, 2] :=
  ⟨by with_unfolding_all rfl, by decide, by decide⟩

/-- C3 (counterexample): on the all-duplicates dataset `Ddup`
(`minClusterSize = 3`, `minSamples` defaulting to 3) `fit` succeeds and
assigns label 0 to point 0, but its probability is `NaN` (the selected
degenerate cluster has `maxEdgeWeight = 0`, so the membership is
`1 - 0/0`): an assigned point's probability is not a rational in `[0, 1]`,
and no clamping is performed. -/
theorem probabilities_nan_cex :
    hdbscanNew { minClusterSize := some 3 } = Except.ok S33 ∧
    (fit S33 Ddup).toOption.map (fun s => (s.labels_, s.probabilities_)) =
      some ([0, -1, -1, 0, 0],
        [JSN.nan, JSN.num 0, JSN.num 0, JSN.nan, JSN.nan]) ∧
    JSN.isNum JSN.nan = false :=
  ⟨by with_unfolding_all rfl, by with_unfolding_all rfl, rfl⟩

/-- The inner point loop of `assignClusterLabels` writes the current label
and the membership at exactly the listed positions (writes beyond the list
length are dropped, matching positions that cannot be read back). -/
theorem setFold_spec (lab : ℤ) (cluster : Cluster) :
    ∀ (pts : List ℕ) (L : List ℤ) (P : List JSN),
      (pts.foldl (fun (lp : List ℤ × List JSN) p =>
        (lp.1.set p lab, lp.2.set p (calculateMembership p cluster)))
        (L, P)).1.length = L.length ∧
      (pts.foldl (fun (lp : List ℤ × List JSN) p =>
        (lp.1.set p lab, lp.2.set p (calculateMembership p cluster)))
        (L, P)).2.length = P.length ∧
      ∀ i : ℕ,
        (i ∉ pts →
          (pts.foldl (fun (lp : List ℤ × List JSN) p =>
            (lp.1.set p lab, lp.2.set p (calculateMembership p cluster)))
            (L, P)).1.get? i = L.get? i ∧
          (pts.foldl (fun (lp : List ℤ × List JSN) p =>
            (lp.1.set p lab, lp.2.set p (calculateMembership p cluster)))
            (L, P)).2.get? i = P.get? i) ∧
        (i ∈ pts →
          (pts.foldl (fun (lp : List ℤ × List JSN) p =>
            (lp.1.set p lab, lp.2.set p (calculateMembership p cluster)))
            (L, P)).1.get? i = (if i < L.length then some lab else none) ∧
          (pts.foldl (fun (lp : List ℤ × List JSN) p =>
            (lp.1.set p lab, lp.2.set p (calculateMembership p cluster)))
            (L, P)).2.get? i =
              (if i < P.length then some (calculateMembership i cluster) else none))
  | [], L, P => by
    refine ⟨rfl, rfl, fun i => ⟨fun _ => ⟨rfl, rfl⟩, fun hmem => absurd hmem (by simp)⟩⟩
  | p :: rest, L, P => by
    simp only [List.foldl_cons]
    obtain ⟨ih1, ih2, ih3⟩ :=
      setFold_spec lab cluster rest (L.set p lab)
        (P.set p (calculateMembership p cluster))
    refine ⟨by rw [ih1, List.length_set], by rw [ih2, List.length_set], fun i => ?_⟩
    obtain ⟨ihn, ihm⟩ := ih3 i
    constructor
    · intro hni
      have hip : i ≠ p := fun he => hni (he ▸ List.mem_cons_self p rest)
      have hnr : i ∉ rest := fun hr => hni (List.mem_cons_of_mem p hr)
      obtain ⟨hL, hP⟩ := ihn hnr
      rw [hL, hP, List.get?_set_ne _ _ (fun he => hip he.symm),
        List.get?_set_ne _ _ (fun he => hip he.symm)]
      exact ⟨rfl, rfl⟩
    · intro hmem
      by_cases hir : i ∈ rest
      · obtain ⟨hL, hP⟩ := ihm hir
        rw [hL, hP, List.length_set, List.length_set]
        exact ⟨rfl, rfl⟩
      · have hip : i = p := by
          rcases List.mem_cons.mp hmem with he | hr
          · exact he
          · exact absurd hr hir
        subst hip
        obtain ⟨hL, hP⟩ := ihn hir
        rw [hL, hP, List.get?_set_eq, List.get?_set_eq]
        by_cases hlt : i < L.length
        · rw [if_pos hlt]
          by_cases hlt2 : i < P.length
          · rw [if_pos hlt2]
            rw [List.get?_eq_get hlt, List.get?_eq_get hlt2]
            exact ⟨rfl, rfl⟩
          · rw [if_neg hlt2]
            rw [List.get?_eq_get hlt, List.get?_eq_none.mpr (by omega)]
            exact ⟨rfl, rfl⟩
        · rw [if_neg hlt]
          by_cases hlt2 : i < P.length
          · rw [if_pos hlt2]
            rw [List.get?_eq_none.mpr (by omega), List.get?_eq_get hlt2]
            exact ⟨rfl, rfl⟩
          · rw [if_neg hlt2]
            rw [List.get?_eq_none.mpr (by omega), List.get?_eq_none.mpr (by omega)]
            exact ⟨rfl, rfl⟩

/-- The label-assignment loop preserves its invariant. -/
theorem assignFold_inv (sel : List Cluster) (n : ℕ) (mcs : ℤ) :
    ∀ (rest : List Cluster) (acc : List ℤ × List JSN × ℤ),
      (∀ c ∈ rest, c ∈ sel) → assignInv sel n mcs acc →
      assignInv sel n mcs (rest.foldl (assignStep mcs) acc)
  | [], acc, _, hinv => hinv
  | cluster :: rest, acc, hsub, hinv => by
    rw [List.foldl_cons]
    refine assignFold_inv sel n mcs rest (assignStep mcs acc cluster)
      (fun c hc => hsub c (List.mem_cons_of_mem cluster hc)) ?_
    obtain ⟨hL, hP, hlab, hnoise, hassigned⟩ := hinv
    unfold assignStep
    by_cases hsize : ((getClusterPoints cluster).length : ℤ) ≥ mcs
    · rw [if_pos hsize]
      obtain ⟨hf1, hf2, hf3⟩ :=
        setFold_spec acc.2.2 cluster (getClusterPoints cluster) acc.1 acc.2.1
      refine ⟨by rw [hf1, hL], by rw [hf2, hP],
        by show 0 ≤ acc.2.2 + 1; omega, ?_, ?_⟩
      · intro i hlm
        obtain ⟨hni, hmi⟩ := hf3 i
        by_cases hmem : i ∈ getClusterPoints cluster
        · obtain ⟨hLi, _⟩ := hmi hmem
          rw [hLi] at hlm
          by_cases hlt : i < acc.1.length
          · rw [if_pos hlt] at hlm
            have : acc.2.2 = -1 := by injection hlm
            omega
          · rw [if_neg hlt] at hlm
            exact Option.noConfusion hlm
        · obtain ⟨hLi, hPi⟩ := hni hmem
          rw [hLi] at hlm
          rw [hPi]
          exact hnoise i hlm
      · intro i v hv hvne
        obtain ⟨hni, hmi⟩ := hf3 i
        by_cases hmem : i ∈ getClusterPoints cluster
        · obtain ⟨hLi, hPi⟩ := hmi hmem
          rw [hLi] at hv
          by_cases hlt : i < acc.1.length
          · refine ⟨cluster, hsub cluster (List.mem_cons_self cluster rest),
              hmem, hsize, ?_⟩
            rw [hPi, if_pos (by rw [hP, ← hL]; exact hlt)]
          · rw [if_neg hlt] at hv
            exact Option.noConfusion hv
        · obtain ⟨hLi, hPi⟩ := hni hmem
          rw [hLi] at hv
          rw [hPi]
          exact hassigned i v hv hvne
    · rw [if_neg hsize]
      exact ⟨hL, hP, hlab, hnoise, hassigned⟩

/-- The output of `assignClusterLabels` for any selected list: both lists
have length `n`, points still labelled `-1` (noise) have probability
exactly 0, and every other labelled point carries the membership value of
some selected cluster containing it. -/
theorem assignClusterLabels_spec (sel : List Cluster) (n : ℕ) (mcs : ℤ) :
    (assignClusterLabels sel n mcs).1.length = n ∧
    (assignClusterLabels sel n mcs).2.length = n ∧
    (∀ i : ℕ, (assignClusterLabels sel n mcs).1.get? i = some (-1) →
      (assignClusterLabels sel n mcs).2.get? i = some (JSN.num 0)) ∧
    ∀ (i : ℕ) (v : ℤ), (assignClusterLabels sel n mcs).1.get? i = some v →
      v ≠ -1 →
      ∃ c : Cluster, c ∈ sel ∧ i ∈ getClusterPoints c ∧
        ((getClusterPoints c).length : ℤ) ≥ mcs ∧
        (assignClusterLabels sel n mcs).2.get? i =
          some (calculateMembership i c) := by
  have hinit : assignInv sel n mcs
      (List.replicate n (-1 : ℤ), List.replicate n (JSN.num 0), (0 : ℤ)) := by
    refine ⟨List.length_replicate n _, List.length_replicate n _, le_refl 0,
      ?_, ?_⟩
    · intro i hi
      have hlt : i < n := by
        by_contra hge
        rw [List.get?_eq_none.mpr (by rw [List.length_replicate]; omega)] at hi
        exact Option.noConfusion hi
      rw [List.get?_eq_get (by rw [List.length_replicate]; exact hlt)]
      simp
    · intro i v hv hvne
      have hlt : i < n := by
        by_contra hge
        rw [List.get?_eq_none.mpr (by rw [List.length_replicate]; omega)] at hv
        exact Option.noConfusion hv
      rw [List.get?_eq_get (by rw [List.length_replicate]; exact hlt)] at hv
      have : v = -1 := by
        rw [List.get_replicate] at hv
        injection hv with hv2
        omega
      exact absurd this hvne
  have h := assignFold_inv sel n mcs sel
    (List.replicate n (-1 : ℤ), List.replicate n (JSN.num 0), (0 : ℤ))
    (fun c hc => hc) hinit
  obtain ⟨h1, h2, _, h4, h5⟩ := h
  exact ⟨h1, h2, h4, h5⟩

/-- The selection scan over the first `k` indices: if it finds nothing,
no unvisited index below `k` holds a candidate; if it finds `(w, v)`, then
`v` is an unvisited index below `k` holding weight `w`, every unvisited
candidate below `k` weighs at least `w`, and among candidates of weight
exactly `w` the selected `v` is the smallest index. -/
theorem selectFold_spec (visited : List ℕ) (minE : List (Option (ℚ × ℕ))) :
    ∀ k : ℕ,
      ((List.range k).foldl
          (fun best i =>
            if i ∈ visited then best
            else
              match (minE.get? i).join with
              | some wc =>
                match best with
                | none => some (wc.1, i)
                | some b => if wc.1 < b.1 then some (wc.1, i) else best
              | none => best)
          none = none →
        ∀ u, u < k → u ∉ visited → (minE.get? u).join = none) ∧
      ∀ w v,
        (List.range k).foldl
          (fun best i =>
            if i ∈ visited then best
            else
              match (minE.get? i).join with
              | some wc =>
                match best with
                | none => some (wc.1, i)
                | some b => if wc.1 < b.1 then some (wc.1, i) else best
              | none => best)
          none = some (w, v) →
        v < k ∧ v ∉ visited ∧ (∃ c, (minE.get? v).join = some (w, c)) ∧
          ∀ u, u < k → u ∉ visited → ∀ wu cu,
            (minE.get? u).join = some (wu, cu) → w ≤ wu ∧ (wu = w → v ≤ u)
  | 0 => by
    constructor
    · intro _ u hu; omega
    · intro w v h; exact absurd h (by simp)
  | k + 1 => by
    obtain ⟨ih1, ih2⟩ := selectFold_spec visited minE k
    rw [List.range_succ, List.foldl_append, List.foldl_cons, List.foldl_nil]
    by_cases hkv : k ∈ visited
    · rw [if_pos hkv]
      constructor
      · intro hnone u hu huv
        rcases Nat.lt_succ_iff_lt_or_eq.mp hu with hlt | he
        · exact ih1 hnone u hlt huv
        · exact absurd (he ▸ hkv) huv
      · intro w v hsome
        obtain ⟨hv1, hv2, hv3, hv4⟩ := ih2 w v hsome
        refine ⟨by omega, hv2, hv3, fun u hu huv wu cu hj => ?_⟩
        rcases Nat.lt_succ_iff_lt_or_eq.mp hu with hlt | he
        · exact hv4 u hlt huv wu cu hj
        · exact absurd (he ▸ hkv) huv
    · rw [if_neg hkv]
      cases hjk : (minE.get? k).join with
      | none =>
        constructor
        · intro hnone u hu huv
          rcases Nat.lt_succ_iff_lt_or_eq.mp hu with hlt | he
          · exact ih1 hnone u hlt huv
          · exact he ▸ hjk
        · intro w v hsome
          obtain ⟨hv1, hv2, hv3, hv4⟩ := ih2 w v hsome
          refine ⟨by omega, hv2, hv3, fun u hu huv wu cu hj => ?_⟩
          rcases Nat.lt_succ_iff_lt_or_eq.mp hu with hlt | he
          · exact hv4 u hlt huv wu cu hj
          · rw [he, hjk] at hj; exact Option.noConfusion hj
      | some wc =>
        cases hFk : (List.range k).foldl
            (fun best i =>
              if i ∈ visited then best
              else
                match (minE.get? i).join with
                | some wc =>
                  match best with
                  | none => some (wc.1, i)
                  | some b => if wc.1 < b.1 then some (wc.1, i) else best
                | none => best)
            none with
        | none =>
          constructor
          · intro hnone; exact absurd hnone (by simp)
          · intro w v hsome
            injection hsome with h2
            have hw : wc.1 = w := congrArg Prod.fst h2
            have hv : k = v := congrArg Prod.snd h2
            refine ⟨by omega, hv ▸ hkv, ⟨wc.2, by rw [← hv, hjk, ← hw]⟩,
              fun u hu huv wu cu hj => ?_⟩
            rcases Nat.lt_succ_iff_lt_or_eq.mp hu with hlt | he
            · rw [ih1 hFk u hlt huv] at hj; exact Option.noConfusion hj
            · rw [he, hjk] at hj
              injection hj with hj2
              have hwu : wu = wc.1 := (congrArg Prod.fst hj2).symm
              constructor
              · exact le_of_eq (by rw [hwu, hw])
              · intro _; omega
        | some b =>
          obtain ⟨hb1, hb2, hb3, hb4⟩ := ih2 b.1 b.2 (by rw [hFk])
          dsimp only
          by_cases hlt : wc.1 < b.1
          · rw [if_pos hlt]
            constructor
            · intro hnone; exact absurd hnone (by simp)
            · intro w v hsome
              injection hsome with h2
              have hw : wc.1 = w := congrArg Prod.fst h2
              have hv : k = v := congrArg Prod.snd h2
              refine ⟨by omega, hv ▸ hkv, ⟨wc.2, by rw [← hv, hjk, ← hw]⟩,
                fun u hu huv wu cu hj => ?_⟩
              rcases Nat.lt_succ_iff_lt_or_eq.mp hu with hlt2 | he
              · obtain ⟨hle, _⟩ := hb4 u hlt2 huv wu cu hj
                have hwlt : w < wu := lt_of_lt_of_le (hw ▸ hlt) hle
                constructor
                · exact le_of_lt hwlt
                · intro hwu; exact absurd (hwu ▸ hwlt) (lt_irrefl w)
              · rw [he, hjk] at hj
                injection hj with hj2
                have hwu : wu = wc.1 := (congrArg Prod.fst hj2).symm
                constructor
                · exact le_of_eq (by rw [hwu, hw])
                · intro _; omega
          · rw [if_neg hlt]
            constructor
            · intro hnone; exact absurd hnone (by simp)
            · intro w v hsome
              injection hsome with h2
              rw [show b = (w, v) from h2] at hb1 hb2 hb3 hb4 hlt
              refine ⟨by omega, hb2, hb3, fun u hu huv wu cu hj => ?_⟩
              rcases Nat.lt_succ_iff_lt_or_eq.mp hu with hlt2 | he
              · exact hb4 u hlt2 huv wu cu hj
              · rw [he, hjk] at hj
                injection hj with hj2
                have hwu : wu = wc.1 := (congrArg Prod.fst hj2).symm
                constructor
                · rw [hwu]; exact not_lt.mp hlt
                · intro _; omega

/-- With fewer visited vertices than `n` there is an unvisited index. -/
theorem exists_unvisited (n : ℕ) (visited : List ℕ)
    (hlen : visited.length < n) : ∃ u, u < n ∧ u ∉ visited := by
  by_contra hall
  push_neg at hall
  have hsub : Finset.range n ⊆ visited.toFinset := by
    intro u hu
    exact List.mem_toFinset.mpr (hall u (Finset.mem_range.mp hu))
  have h1 : n ≤ visited.toFinset.card := by
    have := Finset.card_le_card hsub
    rwa [Finset.card_range] at this
  have h2 : visited.toFinset.card ≤ visited.length := visited.toFinset_card_le
  omega

/-- Relaxation keeps a candidate present on every vertex that stays
unvisited. -/
theorem relaxEdges_isSome (distances : List (List ℚ)) (n v : ℕ)
    (visited2 : List ℕ) (minE : List (Option (ℚ × ℕ))) (i : ℕ) (hi : i < n)
    (hiv : i ∉ visited2) (hold : ((minE.get? i).join).isSome = true) :
    (((relaxEdges distances n v visited2 minE).get? i).join).isSome = true := by
  obtain ⟨wc, hwc⟩ := Option.isSome_iff_exists.mp hold
  unfold relaxEdges
  rw [List.get?_map, List.get?_range hi]
  simp only [Option.map_some', join_some]
  rw [hwc]
  rw [if_neg hiv]
  cases rowGet distances v i with
  | none => rfl
  | some w =>
    by_cases hlt : w < wc.1
    · simp [hlt]
    · simp [hlt]

/-- The Prim loop terminates successfully and emits one edge per vertex
beyond the start whenever every unvisited vertex holds a candidate. -/
theorem mstLoop_ok (distances : List (List ℚ)) (n : ℕ) :
    ∀ (fuel : ℕ) (visited : List ℕ) (minE : List (Option (ℚ × ℕ)))
      (edges : List Edge),
      visited.Nodup → (∀ x ∈ visited, x < n) →
      (∀ i, i < n → i ∉ visited → ((minE.get? i).join).isSome = true) →
      n - visited.length ≤ fuel →
      ∃ es, mstLoop distances n fuel visited minE edges = some es ∧
        es.length = edges.length + (n - visited.length)
  | 0, visited, minE, edges => by
    intro _ _ _ hfuel
    have hge : n ≤ visited.length := by omega
    refine ⟨edges, ?_, by omega⟩
    unfold mstLoop
    rw [if_pos hge]
  | fuel + 1, visited, minE, edges => by
    intro hnd hbound hsome hfuel
    by_cases hge : n ≤ visited.length
    · refine ⟨edges, ?_, by omega⟩
      unfold mstLoop
      rw [if_pos hge]
    · have hlt : visited.length < n := by omega
      obtain ⟨u, hu, huv⟩ := exists_unvisited n visited hlt
      obtain ⟨ih1, ih2⟩ := selectFold_spec visited minE n
      cases hsel : selectMinVertex n visited minE with
      | none =>
        have := ih1 hsel u hu huv
        have h2 := hsome u hu huv
        rw [this] at h2
        exact Bool.noConfusion h2
      | some wv =>
        obtain ⟨hv1, hv2, ⟨c, hc⟩, _⟩ := ih2 wv.1 wv.2
          (by unfold selectMinVertex at hsel; rw [hsel])
        have hnd2 : (wv.2 :: visited).Nodup := List.nodup_cons.mpr ⟨hv2, hnd⟩
        have hbound2 : ∀ x ∈ wv.2 :: visited, x < n := by
          intro x hx
          rcases List.mem_cons.mp hx with he | hm
          · omega
          · exact hbound x hm
        have hsome2 : ∀ i, i < n → i ∉ wv.2 :: visited →
            (((relaxEdges distances n wv.2 (wv.2 :: visited) minE).get? i).join).isSome
              = true := by
          intro i hi hiv
          have hiv0 : i ∉ visited := fun hm => hiv (List.mem_cons_of_mem _ hm)
          exact relaxEdges_isSome distances n wv.2 (wv.2 :: visited) minE i hi hiv
            (hsome i hi hiv0)
        obtain ⟨es, hes, hlen⟩ := mstLoop_ok distances n fuel (wv.2 :: visited)
          (relaxEdges distances n wv.2 (wv.2 :: visited) minE)
          (edges ++ [⟨(((minE.get? wv.2).join).map Prod.snd).getD 0, wv.2, wv.1⟩])
          hnd2 hbound2 hsome2 (by simp only [List.length_cons]; omega)
        refine ⟨es, ?_, ?_⟩
        · unfold mstLoop
          rw [if_neg hge, hsel]
          exact hes
        · rw [hlen]
          simp only [List.length_append, List.length_cons, List.length_singleton,
            List.length_nil]
          omega

/-- C8: for every square matrix of (rational, hence finite) weights over
`n ≥ 2` points, `buildMinimumSpanningTree` terminates and returns exactly
`n - 1` edges, emitted in the order Prim's loop (started from vertex 0)
discovered them — the returned list is literally the emission sequence of
the loop — and the selection scan always picks, among the unvisited
vertices, one of minimum candidate weight, breaking ties by the smallest
index. -/
theorem buildMST_spec (distances : List (List ℚ)) (h2 : 2 ≤ distances.length)
    (hrows : ∀ row ∈ distances, row.length = distances.length) :
    (∃ es, buildMinimumSpanningTree distances = some es ∧
      es.length = distances.length - 1) ∧
    ∀ (visited : List ℕ) (minE : List (Option (ℚ × ℕ))) (w : ℚ) (v : ℕ),
      selectMinVertex distances.length visited minE = some (w, v) →
      v < distances.length ∧ v ∉ visited ∧
        (∃ c, (minE.get? v).join = some (w, c)) ∧
        ∀ u, u < distances.length → u ∉ visited → ∀ wu cu,
          (minE.get? u).join = some (wu, cu) → w ≤ wu ∧ (wu = w → v ≤ u) := by
  constructor
  · have hsome0 : ∀ i, i < distances.length → i ∉ [0] →
        ((((List.range distances.length).map
          (fun i => if i = 0 then none
            else (rowGet distances 0 i).map (fun w => (w, 0)))).get? i).join).isSome
          = true := by
      intro i hi hi0
      have hine : i ≠ 0 := by
        intro he; exact hi0 (he ▸ List.mem_singleton.mpr rfl)
      rw [List.get?_map, List.get?_range hi]
      simp only [Option.map_some', join_some]
      rw [if_neg hine]
      have hr0 : distances.get? 0 = some (distances.get ⟨0, by omega⟩) :=
        List.get?_eq_get (by omega)
      have hmem : distances.get ⟨0, by omega⟩ ∈ distances := List.get_mem _ _ _
      have hlen0 : (distances.get ⟨0, by omega⟩).length = distances.length :=
        hrows _ hmem
      unfold rowGet
      rw [hr0]
      simp only [Option.some_bind]
      rw [List.get?_eq_get (by rw [hlen0]; exact hi)]
      rfl
    obtain ⟨es, hes, hlen⟩ := mstLoop_ok distances distances.length
      distances.length [0]
      ((List.range distances.length).map
        (fun i => if i = 0 then none
          else (rowGet distances 0 i).map (fun w => (w, 0))))
      [] (by simp) (by intro x hx; rw [List.mem_singleton.mp hx]; omega)
      hsome0 (by simp)
    refine ⟨es, ?_, ?_⟩
    · unfold buildMinimumSpanningTree
      exact hes
    · rw [hlen]; simp
  · intro visited minE w v hsel
    unfold selectMinVertex at hsel
    exact (selectFold_spec visited minE distances.length).2 w v hsel

/-- Witness for `buildMST_spec` at the 2×2 matrix `[[0, 1], [1, 0]]`. -/
theorem buildMST_spec_witness :
    2 ≤ ([[0, 1], [1, 0]] : List (List ℚ)).length ∧
    (∀ row ∈ ([[0, 1], [1, 0]] : List (List ℚ)), row.length = 2) ∧
    ∃ es, buildMinimumSpanningTree [[0, 1], [1, 0]] = some es ∧
      es.length = 1 :=
  ⟨by decide, by decide,
    (buildMST_spec [[0, 1], [1, 0]] (by decide) (by decide)).1⟩

/-- A vertex has rank 0 exactly when it is never a destination. -/
theorem rankOf_eq_zero_iff (x : ℕ) :
    ∀ es : List Edge, rankOf es x = 0 ↔ ∀ e ∈ es, e.d ≠ x
  | [] => by simp [rankOf]
  | e :: rest => by
    unfold rankOf
    by_cases hd : e.d = x
    · simp only [if_pos hd]
      constructor
      · intro h; exact absurd h (by omega)
      · intro hall; exact absurd hd (hall e (List.mem_cons_self e rest))
    · simp only [if_neg hd]
      by_cases hr : rankOf rest x = 0
      · simp only [if_pos hr]
        constructor
        · intro _ e' he'
          rcases List.mem_cons.mp he' with he | hm
          · rw [he]; exact hd
          · exact ((rankOf_eq_zero_iff x rest).mp hr) e' hm
        · intro _; trivial
      · simp only [if_neg hr]
        constructor
        · intro h; exact absurd h (by omega)
        · intro hall
          exact absurd ((rankOf_eq_zero_iff x rest).mpr
            (fun e' he' => hall e' (List.mem_cons_of_mem e he'))) hr

/-- Ranks never exceed the list length. -/
theorem rankOf_le_length (x : ℕ) :
    ∀ es : List Edge, rankOf es x ≤ es.length
  | [] => by simp [rankOf]
  | e :: rest => by
    unfold rankOf
    have := rankOf_le_length x rest
    by_cases hd : e.d = x
    · simp only [if_pos hd, List.length_cons]; omega
    · simp only [if_neg hd, List.length_cons]
      by_cases hr : rankOf rest x = 0
      · simp only [if_pos hr]; omega
      · simp only [if_neg hr]; omega

/-- In a Prim-shaped list no destination lies in the initial visited set. -/
theorem primOK_dest_not_visited (n : ℕ) :
    ∀ (es : List Edge) (visited : List ℕ), primOK n visited es →
      ∀ e ∈ es, e.d ∉ visited
  | [], _, _ => by intro e he; exact absurd he (by simp)
  | e :: rest, visited, h => by
    obtain ⟨_, hd, _, hrest⟩ := h
    intro e' he'
    rcases List.mem_cons.mp he' with he2 | hm
    · rw [he2]; exact hd
    · intro hv
      exact (primOK_dest_not_visited n rest (e.d :: visited) hrest e' hm)
        (List.mem_cons_of_mem _ hv)

/-- In a Prim-shaped list destinations determine the edge. -/
theorem primOK_dest_inj (n : ℕ) :
    ∀ (es : List Edge) (visited : List ℕ), primOK n visited es →
      ∀ e ∈ es, ∀ e' ∈ es, e.d = e'.d → e = e'
  | [], _, _ => by intro e he; exact absurd he (by simp)
  | e :: rest, visited, h => by
    obtain ⟨_, hd, _, hrest⟩ := h
    have hfresh := primOK_dest_not_visited n rest (e.d :: visited) hrest
    intro a ha b hb hab
    rcases List.mem_cons.mp ha with ha2 | ham
    · rcases List.mem_cons.mp hb with hb2 | hbm
      · rw [ha2, hb2]
      · exfalso
        apply hfresh b hbm
        rw [← hab, ha2]
        exact List.mem_cons_self e.d visited
    · rcases List.mem_cons.mp hb with hb2 | hbm
      · exfalso
        apply hfresh a ham
        rw [hab, hb2]
        exact List.mem_cons_self e.d visited
      · exact primOK_dest_inj n rest (e.d :: visited) hrest a ham b hbm hab

/-- Visited vertices have rank 0. -/
theorem primOK_rank_visited (n : ℕ) (es : List Edge) (visited : List ℕ)
    (h : primOK n visited es) (v : ℕ) (hv : v ∈ visited) : rankOf es v = 0 :=
  (rankOf_eq_zero_iff v es).mpr (fun e he heq =>
    (primOK_dest_not_visited n es visited h e he) (heq ▸ hv))

/-- Along every Prim edge the source was discovered strictly earlier. -/
theorem primOK_rank_lt (n : ℕ) :
    ∀ (es : List Edge) (visited : List ℕ), primOK n visited es →
      ∀ e ∈ es, rankOf es e.s < rankOf es e.d
  | [], _, _ => by intro e he; exact absurd he (by simp)
  | e :: rest, visited, h => by
    obtain ⟨hs, hd, _, hrest⟩ := h
    have hfresh := primOK_dest_not_visited n rest (e.d :: visited) hrest
    intro a ha
    rcases List.mem_cons.mp ha with ha2 | ham
    · subst ha2
      have h1 : rankOf (a :: rest) a.d = 1 := by
        simp [rankOf]
      have hsd : a.d ≠ a.s := by
        intro he; exact hd (he ▸ hs)
      have h0 : rankOf rest a.s = 0 :=
        (rankOf_eq_zero_iff a.s rest).mpr (fun e' he' heq =>
          (hfresh e' he') (List.mem_cons_of_mem _ (heq ▸ hs)))
      have h2 : rankOf (a :: rest) a.s = 0 := by
        simp only [rankOf]; rw [if_neg hsd, h0]; simp
      omega
    · have ih := primOK_rank_lt n rest (e.d :: visited) hrest a ham
      have hrd : rankOf rest a.d ≠ 0 := by
        intro h0
        exact ((rankOf_eq_zero_iff a.d rest).mp h0) a ham rfl
      have hneq : e.d ≠ a.d := fun heq =>
        (hfresh a ham) (heq ▸ List.mem_cons_self e.d visited)
      have hcd : rankOf (e :: rest) a.d = rankOf rest a.d + 1 := by
        simp only [rankOf]; rw [if_neg hneq, if_neg hrd]
      by_cases hes : e.d = a.s
      · have has2 : rankOf (e :: rest) a.s = 1 := by
          simp only [rankOf]; rw [if_pos hes]
        omega
      · have has2 : rankOf (e :: rest) a.s =
            if rankOf rest a.s = 0 then 0 else rankOf rest a.s + 1 := by
          simp only [rankOf]; rw [if_neg hes]
        by_cases h0 : rankOf rest a.s = 0
        · rw [if_pos h0] at has2; omega
        · rw [if_neg h0] at has2; omega

/-- `find?` returns the unique element satisfying the predicate. -/
theorem find?_unique {p : Edge → Bool} :
    ∀ (es : List Edge) (e : Edge), e ∈ es → p e = true →
      (∀ e' ∈ es, p e' = true → e' = e) → es.find? p = some e
  | [], e => by intro he; exact absurd he (by simp)
  | a :: rest, e => by
    intro he hp huniq
    rw [List.find?_cons]
    by_cases hpa : p a = true
    · rw [hpa]
      rw [huniq a (List.mem_cons_self a rest) hpa]
    · rw [Bool.eq_false_iff.mpr hpa]
      have hne : e ≠ a := fun heq => hpa (heq ▸ hp)
      have hem : e ∈ rest := by
        rcases List.mem_cons.mp he with h2 | h2
        · exact absurd h2 hne
        · exact h2
      exact find?_unique rest e hem hp
        (fun e' he' hp' => huniq e' (List.mem_cons_of_mem a he') hp')

/-- The start marker is always a descendant of itself. -/
theorem descend_self (es : List Edge) (d0 : ℕ) :
    ∀ fuel, descend es d0 fuel d0 = true
  | 0 => by simp [descend]
  | fuel + 1 => by simp [descend]

/-- A descendant's rank is at least the removed destination's rank. -/
theorem descend_rank_le (es : List Edge) (d0 : ℕ)
    (hr : ∀ e ∈ es, rankOf es e.s < rankOf es e.d) :
    ∀ (fuel : ℕ) (x : ℕ), descend es d0 fuel x = true →
      rankOf es d0 ≤ rankOf es x
  | 0, x => by
    intro h
    simp only [descend, decide_eq_true_eq] at h
    exact le_of_eq (congrArg (rankOf es) h.symm)
  | fuel + 1, x => by
    intro h
    simp only [descend] at h
    rcases Bool.or_eq_true_iff.mp h with h1 | h2
    · exact le_of_eq (congrArg (rankOf es) (decide_eq_true_eq.mp h1).symm)
    · cases hf : es.find? (fun e => decide (e.d = x)) with
      | none => rw [hf] at h2; exact Bool.noConfusion h2
      | some e =>
        rw [hf] at h2
        have hmem := List.mem_of_find?_eq_some hf
        have hpd : e.d = x := by
          have := List.find?_some hf
          exact decide_eq_true_eq.mp this
        have := descend_rank_le es d0 hr fuel e.s h2
        have h3 := hr e hmem
        rw [hpd] at h3
        omega

/-- The fueled descendant test is insensitive to the fuel once it covers
the vertex's rank. -/
theorem descend_stable (es : List Edge) (d0 : ℕ)
    (hr : ∀ e ∈ es, rankOf es e.s < rankOf es e.d) :
    ∀ (k f g x : ℕ), rankOf es x ≤ k → k ≤ f → k ≤ g →
      descend es d0 f x = descend es d0 g x
  | 0, f, g, x => by
    intro hk hf hg
    have hrx : rankOf es x = 0 := by omega
    have hfind : es.find? (fun e => decide (e.d = x)) = none := by
      rw [List.find?_eq_none]
      intro e he hde
      exact ((rankOf_eq_zero_iff x es).mp hrx) e he (decide_eq_true_eq.mp hde)
    have hval : ∀ m, descend es d0 m x = decide (x = d0) := by
      intro m
      cases m with
      | zero => rfl
      | succ m2 => simp [descend, hfind]
    rw [hval f, hval g]
  | k + 1, f, g, x => by
    intro hk hf hg
    by_cases hk2 : rankOf es x ≤ k
    · exact descend_stable es d0 hr k f g x hk2 (by omega) (by omega)
    · have hx1 : 1 ≤ rankOf es x := by omega
      cases hfind : es.find? (fun e => decide (e.d = x)) with
      | none =>
        exfalso
        rw [List.find?_eq_none] at hfind
        have hzero : rankOf es x = 0 :=
          (rankOf_eq_zero_iff x es).mpr
            (fun e he hde => (hfind e he) (by simp [hde]))
        omega
      | some ef =>
        have hmem := List.mem_of_find?_eq_some hfind
        have hed : ef.d = x := by
          have hp := List.find?_some hfind
          exact decide_eq_true_eq.mp hp
        have hlt2 : rankOf es ef.s < rankOf es x := hed ▸ hr ef hmem
        cases f with
        | zero => omega
        | succ f2 =>
          cases g with
          | zero => omega
          | succ g2 =>
            simp only [descend, hfind]
            rw [descend_stable es d0 hr k f2 g2 ef.s (by omega) (by omega)
              (by omega)]

/-- The removed edge's source is never a descendant of its destination. -/
theorem desc_source_false (es : List Edge) (e0 : Edge) (h0 : e0 ∈ es)
    (hr : ∀ e ∈ es, rankOf es e.s < rankOf es e.d) :
    descOf es e0.d e0.s = false := by
  by_contra h
  have htrue : descend es e0.d es.length e0.s = true := by
    cases hbe : descOf es e0.d e0.s with
    | false => exact absurd hbe h
    | true => exact hbe
  have h1 := descend_rank_le es e0.d hr es.length e0.s htrue
  have h2 := hr e0 h0
  omega

/-- Every other tree edge connects two vertices on the same side of the
removed edge. -/
theorem desc_edge_invariant (es : List Edge) (e0 : Edge) (h0 : e0 ∈ es)
    (hinj : ∀ e ∈ es, ∀ e' ∈ es, e.d = e'.d → e = e')
    (hr : ∀ e ∈ es, rankOf es e.s < rankOf es e.d) :
    ∀ e ∈ es, e ≠ e0 → descOf es e0.d e.s = descOf es e0.d e.d := by
  intro e hmem hne
  have hed0 : e.d ≠ e0.d := fun heq => hne (hinj e hmem e0 h0 heq)
  have hfind : es.find? (fun x => decide (x.d = e.d)) = some e :=
    find?_unique es e hmem (by simp)
      (fun e' he' hp' => hinj e' he' e hmem (decide_eq_true_eq.mp hp'))
  obtain ⟨m, hm⟩ : ∃ m, es.length = m + 1 := by
    cases hes : es with
    | nil => rw [hes] at hmem; exact absurd hmem (by simp)
    | cons a rest => exact ⟨rest.length, by simp⟩
  have hrankd : rankOf es e.d ≤ m + 1 := hm ▸ rankOf_le_length e.d es
  have hranks : rankOf es e.s < rankOf es e.d := hr e hmem
  have hrhs : descend es e0.d es.length e.d = descend es e0.d m e.s := by
    rw [hm]
    simp [descend, hfind, hed0]
  have hstab : descend es e0.d m e.s = descend es e0.d es.length e.s :=
    descend_stable es e0.d hr (rankOf es e.s) m es.length e.s (le_refl _)
      (by omega) (by omega)
  unfold descOf
  rw [hrhs, hstab]

/-- C3 (amended): after every successful `fit` of `n` points, `labels_`
and `probabilities_` have length `n`, the result is exactly
`assignClusterLabels` applied to the selected clusters of that run, every
noise point (label `-1`) has probability exactly 0, and every assigned
point carries the unclamped membership `1 - min_reach_C(p)/ε_max(C)`
(`calculateMembership`) of some selected cluster `C` containing it.  The
claim's `[0, 1]` bound does not hold in general: the counterexample run
produces `NaN` for an assigned point of a degenerate cluster, and the
code clamps nothing. -/
theorem fit_probabilities_shape (s : HState) (data : List (List ℚ))
    (s' : HState) (h : fit s data = Except.ok s') :
    ∃ sel : List Cluster,
      (s'.labels_, s'.probabilities_) =
        assignClusterLabels sel data.length s.minClusterSize ∧
      s'.labels_.length = data.length ∧
      s'.probabilities_.length = data.length ∧
      (∀ i : ℕ, s'.labels_.get? i = some (-1) →
        s'.probabilities_.get? i = some (JSN.num 0)) ∧
      ∀ (i : ℕ) (v : ℤ), s'.labels_.get? i = some v → v ≠ -1 →
        ∃ c : Cluster, c ∈ sel ∧ i ∈ getClusterPoints c ∧
          s'.probabilities_.get? i = some (calculateMembership i c) := by
  unfold fit at h
  cases hm : computeMutualReachabilityDistance s.minSamples data with
  | error e => rw [hm, error_bind] at h; exact Except.noConfusion h
  | ok m =>
    rw [hm, ok_bind] at h
    cases hmst : buildMinimumSpanningTree m with
    | none =>
      rw [hmst] at h
      rw [show fromOption (none : Option (List Edge))
          "nontermination: MST selection failed" =
          Except.error "nontermination: MST selection failed" from rfl,
        error_bind] at h
      exact Except.noConfusion h
    | some mst =>
      rw [hmst] at h
      rw [show fromOption (some mst) "nontermination: MST selection failed" =
          Except.ok mst from rfl, ok_bind] at h
      cases hh : buildClusterHierarchy mst s.minClusterSize s.nextClusterId with
      | error e => rw [hh, error_bind] at h; exact Except.noConfusion h
      | ok hn =>
        rw [hh, ok_bind] at h
        dsimp only at h
        cases hex : extractClusters (condenseHierarchy hn.1 s.minClusterSize)
            data.length s.minClusterSize s.shouldSkipRootCluster with
        | none =>
          rw [hex] at h
          rw [show fromOption (none : Option (List ℤ × List JSN))
              "nontermination: extraction fuel exhausted" =
              Except.error "nontermination: extraction fuel exhausted" from rfl,
            error_bind] at h
          exact Except.noConfusion h
        | some lp =>
          rw [hex] at h
          rw [show fromOption (some lp)
              "nontermination: extraction fuel exhausted" =
              Except.ok lp from rfl, ok_bind] at h
          injection h with h2
          obtain ⟨sel, hsel⟩ : ∃ sel : List Cluster,
              lp = assignClusterLabels sel data.length s.minClusterSize := by
            unfold extractClusters at hex
            cases hc : condenseHierarchy hn.1 s.minClusterSize with
            | nil =>
              rw [hc] at hex
              dsimp only at hex
              exact ⟨[], by
                cases hex
                rfl⟩
            | cons c0 cs =>
              rw [hc] at hex
              dsimp only at hex
              cases hp : processClusters (c0 :: cs) s.minClusterSize
                  s.shouldSkipRootCluster
                  (((c0 :: cs).length + 1) * ((c0 :: cs).length + 1)) ([], [])
                  [c0] with
              | none =>
                rw [hp] at hex
                exact absurd hex (by simp)
              | some st =>
                rw [hp] at hex
                refine ⟨st.1, ?_⟩
                cases hex
                rfl
          have hlab : s'.labels_ =
              (assignClusterLabels sel data.length s.minClusterSize).1 := by
            rw [← h2, hsel]
          have hprob : s'.probabilities_ =
              (assignClusterLabels sel data.length s.minClusterSize).2 := by
            rw [← h2, hsel]
          obtain ⟨hl1, hl2, hl3, hl4⟩ :=
            assignClusterLabels_spec sel data.length s.minClusterSize
          refine ⟨sel, by rw [hlab, hprob], by rw [hlab]; exact hl1,
            by rw [hprob]; exact hl2, ?_, ?_⟩
          · intro i hi
            rw [hprob]
            exact hl3 i (by rw [← hlab]; exact hi)
          · intro i v hv hvne
            obtain ⟨c, hc1, hc2, _, hc4⟩ :=
              hl4 i v (by rw [← hlab]; exact hv) hvne
            exact ⟨c, hc1, hc2, by rw [hprob]; exact hc4⟩

/-- Witness for `fit_probabilities_shape`: the first fit of `D2` succeeds,
and the theorem applies to it. -/
theorem fit_probabilities_shape_witness :
    ∃ s' : HState, fit S31 D2 = Except.ok s' ∧
      ∃ sel : List Cluster,
        (s'.labels_, s'.probabilities_) =
          assignClusterLabels sel D2.length S31.minClusterSize ∧
        s'.labels_.length = D2.length ∧
        s'.probabilities_.length = D2.length ∧
        (∀ i : ℕ, s'.labels_.get? i = some (-1) →
          s'.probabilities_.get? i = some (JSN.num 0)) ∧
        ∀ (i : ℕ) (v : ℤ), s'.labels_.get? i = some v → v ≠ -1 →
          ∃ c : Cluster, c ∈ sel ∧ i ∈ getClusterPoints c ∧
            s'.probabilities_.get? i = some (calculateMembership i c) := by
  have hsome : (fit S31 D2).toOption.isSome = true := by with_unfolding_all rfl
  cases hfit : fit S31 D2 with
  | error e => rw [hfit] at hsome; exact Bool.noConfusion hsome
  | ok s' => exact ⟨s', rfl, fit_probabilities_shape S31 D2 s' hfit⟩

/-- Witness for `stability_formula` at a concrete cluster (ε_min = 1,
ε_max = 2, two points): stability `(1/1 - 1/2) * 2 = 1`. -/
theorem stability_formula_witness :
    (1 : ℚ) ≠ 0 ∧ (2 : ℚ) ≠ 0 ∧
      calculateClusterStability
        { id := 5, children := [0, 1], distance := 2, size := 2,
          maxEdgeWeight := 2, birthDistance := 2, leaveEdgeWeight := 1,
          minReachabilityMap := [(0, 1), (1, 1)] } [0, 1] =
        JSN.num ((1 / (1 : ℚ) - 1 / 2) * (2 : ℚ)) := by
  refine ⟨by norm_num, by norm_num, ?_⟩
  exact stability_formula
    { id := 5, children := [0, 1], distance := 2, size := 2,
      maxEdgeWeight := 2, birthDistance := 2, leaveEdgeWeight := 1,
      minReachabilityMap := [(0, 1), (1, 1)] } [0, 1] (by norm_num) (by norm_num)

/-- `unionFold` is the fold of the named `unionStep` over the
weight-filtered edges. -/
theorem unionFold_eq (points : List ℕ) (distance : ℚ) (laterEdges : List Edge)
    (ufLen : ℕ) (p0 : List ℕ) :
    unionFold points distance laterEdges ufLen p0 =
      (laterEdges.filter (fun e => decide (e.w ≤ distance))).foldlM
        (unionStep points ufLen) p0 := rfl

/-- `groupPoints` is the fold of the named `groupStep` over the points. -/
theorem groupPoints_eq (ufLen : ℕ) (points : List ℕ) (parent : List ℕ) :
    groupPoints ufLen points parent =
      points.foldlM (groupStep ufLen) ([], parent) := rfl

/-- The identity parent array is sound for every colouring. -/
theorem UFok_range (n : ℕ) (f : ℕ → Bool) : UFok n f (List.range n) := by
  refine ⟨List.length_range n, ?_⟩
  intro j hj
  have hget : (List.range n).get ⟨j, hj⟩ = j := List.get_range _ _
  rw [hget]
  have hjn : j < n := by
    have := hj
    rw [List.length_range] at this
    exact this
  exact ⟨hjn, rfl⟩

/-- On an in-bounds query over a sound parent array, `find` either runs out
of fuel or returns an in-bounds root of the queried vertex's colour,
preserving soundness of the (path-compressed) array. -/
theorem find_cases (n : ℕ) (f : ℕ → Bool) :
    ∀ (fuel x : ℕ) (p : List ℕ), UFok n f p → x < n →
      find fuel x p = Except.error "union-find fuel exhausted" ∨
      ∃ r p', find fuel x p = Except.ok (r, p') ∧ UFok n f p' ∧ r < n ∧
        f r = f x
  | 0, x, p => fun _ _ => Or.inl rfl
  | fuel + 1, x, p => by
    intro hp hx
    obtain ⟨hlen, hent⟩ := hp
    have hxlt : x < p.length := by omega
    by_cases hpx : p.get ⟨x, hxlt⟩ = x
    · right
      refine ⟨x, p, ?_, ⟨hlen, hent⟩, hx, rfl⟩
      simp only [find]
      rw [dif_pos hxlt, if_pos hpx]
    · obtain ⟨hbnd, hcol⟩ := hent x hxlt
      rcases find_cases n f fuel (p.get ⟨x, hxlt⟩) p ⟨hlen, hent⟩ hbnd with
        herr | ⟨r, p', hok, hp', hr, hf⟩
      · left
        simp only [find]
        rw [dif_pos hxlt, if_neg hpx, herr]
        rfl
      · right
        refine ⟨r, p'.set x r, ?_, ?_, hr, by rw [hf, hcol]⟩
        · simp only [find]
          rw [dif_pos hxlt, if_neg hpx, hok]
          rfl
        · obtain ⟨hlen', hent'⟩ := hp'
          refine ⟨by rw [List.length_set]; exact hlen', ?_⟩
          intro j hj
          have hj' : j < p'.length := by
            have := hj
            rw [List.length_set] at this
            exact this
          by_cases hxj : x = j
          · have hgj : (p'.set x r).get ⟨j, hj⟩ = r := by
              rw [List.get_eq_getElem, List.getElem_set, if_pos hxj]
            rw [hgj, ← hxj]
            exact ⟨hr, by rw [hf, hcol]⟩
          · have hgj : (p'.set x r).get ⟨j, hj⟩ = p'.get ⟨j, hj'⟩ := by
              rw [List.get_eq_getElem, List.get_eq_getElem, List.getElem_set,
                if_neg hxj]
            rw [hgj]
            exact hent' j hj'

/-- One union step either runs out of find fuel or preserves soundness of
the parent array, provided the unioned edge joins same-coloured in-range
endpoints. -/
theorem unionStep_cases (n : ℕ) (f : ℕ → Bool) (points : List ℕ)
    (hpts : ∀ q ∈ points, q < n) (e : Edge)
    (hcol : e.s ∈ points → e.d ∈ points → f e.s = f e.d)
    (ufLen : ℕ) (p : List ℕ) (hp : UFok n f p) :
    unionStep points ufLen p e = Except.error "union-find fuel exhausted" ∨
    ∃ p', unionStep points ufLen p e = Except.ok p' ∧ UFok n f p' := by
  unfold unionStep
  by_cases hm : e.s ∈ points ∧ e.d ∈ points
  · rw [if_pos hm]
    rcases find_cases n f ufLen e.s p hp (hpts e.s hm.1) with
      herr | ⟨r1, p1, hok1, hp1, hr1, hf1⟩
    · left
      rw [herr]
      rfl
    · rw [hok1, ok_bind]
      rcases find_cases n f ufLen e.d p1 hp1 (hpts e.d hm.2) with
        herr2 | ⟨r2, p2, hok2, hp2, hr2, hf2⟩
      · left
        show ((find ufLen e.d p1) >>= _) = _
        rw [herr2]
        rfl
      · show ((find ufLen e.d p1) >>= _) = _ ∨ _
        rw [hok2, ok_bind]
        by_cases hne : r1 ≠ r2
        · rw [if_pos hne]
          right
          refine ⟨p2.set r2 r1, rfl, ?_⟩
          have hcc : f r1 = f r2 := by
            rw [hf1, hf2, hcol hm.1 hm.2]
          obtain ⟨hlen2, hent2⟩ := hp2
          refine ⟨by rw [List.length_set]; exact hlen2, ?_⟩
          intro j hj
          have hj' : j < p2.length := by
            have := hj
            rw [List.length_set] at this
            exact this
          by_cases hxj : r2 = j
          · have hgj : (p2.set r2 r1).get ⟨j, hj⟩ = r1 := by
              rw [List.get_eq_getElem, List.getElem_set, if_pos hxj]
            rw [hgj, ← hxj]
            exact ⟨hr1, hcc⟩
          · have hgj : (p2.set r2 r1).get ⟨j, hj⟩ = p2.get ⟨j, hj'⟩ := by
              rw [List.get_eq_getElem, List.get_eq_getElem, List.getElem_set,
                if_neg hxj]
            rw [hgj]
            exact hent2 j hj'
        · rw [if_neg hne]
          right
          exact ⟨p2, rfl, hp2⟩
  · rw [if_neg hm]
    right
    exact ⟨p, rfl, hp⟩

/-- The whole union pass either runs out of find fuel or preserves
soundness, provided every processed edge joins same-coloured points. -/
theorem foldlM_unionStep_cases (n : ℕ) (f : ℕ → Bool) (points : List ℕ)
    (hpts : ∀ q ∈ points, q < n) (ufLen : ℕ) :
    ∀ (l : List Edge),
      (∀ e ∈ l, e.s ∈ points → e.d ∈ points → f e.s = f e.d) →
      ∀ (p : List ℕ), UFok n f p →
        l.foldlM (unionStep points ufLen) p =
            Except.error "union-find fuel exhausted" ∨
        ∃ p', l.foldlM (unionStep points ufLen) p = Except.ok p' ∧ UFok n f p'
  | [], _, p, hp => Or.inr ⟨p, by rw [List.foldlM_nil]; rfl, hp⟩
  | e :: rest, hcol, p, hp => by
    rw [List.foldlM_cons]
    rcases unionStep_cases n f points hpts e
        (hcol e (List.mem_cons_self e rest)) ufLen p hp with
      herr | ⟨p', hok, hp'⟩
    · left
      rw [herr]
      rfl
    · rw [hok, ok_bind]
      exact foldlM_unionStep_cases n f points hpts ufLen rest
        (fun g hg => hcol g (List.mem_cons_of_mem e hg)) p' hp'

/-- Inserting under a key makes that key present. -/
theorem insertGroup_key_mem : ∀ (gs : List (ℕ × List ℕ)) (k p : ℕ),
    k ∈ (insertGroup gs k p).map Prod.fst
  | [], k, p => by simp [insertGroup]
  | g :: gs, k, p => by
    by_cases h : g.1 = k
    · simp [insertGroup, h]
    · simp only [insertGroup, if_neg h, List.map_cons, List.mem_cons]
      exact Or.inr (insertGroup_key_mem gs k p)

/-- Inserting never removes a key. -/
theorem insertGroup_key_mono : ∀ (gs : List (ℕ × List ℕ)) (k p k' : ℕ),
    k' ∈ gs.map Prod.fst → k' ∈ (insertGroup gs k p).map Prod.fst
  | [], _, _, k' => by simp
  | g :: gs, k, p, k' => by
    intro h
    by_cases hg : g.1 = k
    · simpa [insertGroup, hg] using h
    · simp only [insertGroup, if_neg hg, List.map_cons, List.mem_cons] at h ⊢
      rcases h with h | h
      · exact Or.inl h
      · exact Or.inr (insertGroup_key_mono gs k p k' h)

/-- The grouping pass either runs out of find fuel or produces, for every
grouped point, a group keyed by a root of the point's colour; existing keys
persist and the array stays sound. -/
theorem foldlM_groupStep_cases (n : ℕ) (f : ℕ → Bool) (ufLen : ℕ) :
    ∀ (pts : List ℕ), (∀ q ∈ pts, q < n) →
      ∀ (gs : List (ℕ × List ℕ)) (p : List ℕ), UFok n f p →
        pts.foldlM (groupStep ufLen) (gs, p) =
            Except.error "union-find fuel exhausted" ∨
        ∃ out, pts.foldlM (groupStep ufLen) (gs, p) = Except.ok out ∧
          UFok n f out.2 ∧
          (∀ k ∈ gs.map Prod.fst, k ∈ out.1.map Prod.fst) ∧
          (∀ q ∈ pts, ∃ k ∈ out.1.map Prod.fst, f k = f q)
  | [], _, gs, p, hp =>
    Or.inr ⟨(gs, p), by rw [List.foldlM_nil]; rfl, hp, fun k hk => hk, by simp⟩
  | q :: rest, hq, gs, p, hp => by
    rw [List.foldlM_cons]
    rcases find_cases n f ufLen q p hp (hq q (List.mem_cons_self q rest)) with
      herr | ⟨r, p', hok, hp', hr, hf⟩
    · left
      show ((groupStep ufLen (gs, p) q) >>= _) = _
      unfold groupStep
      rw [herr]
      rfl
    · have hstep : groupStep ufLen (gs, p) q =
          Except.ok (insertGroup gs r q, p') := by
        unfold groupStep
        rw [hok]
        rfl
      rw [hstep, ok_bind]
      rcases foldlM_groupStep_cases n f ufLen rest
          (fun x hx => hq x (List.mem_cons_of_mem q hx))
          (insertGroup gs r q) p' hp' with herr2 | ⟨out, hout, ho1, ho2, ho3⟩
      · left
        exact herr2
      · right
        refine ⟨out, hout, ho1, ?_, ?_⟩
        · intro k hk
          exact ho2 k (insertGroup_key_mono gs r q k hk)
        · intro x hx
          rcases List.mem_cons.mp hx with hx | hx
          · exact ⟨r, ho2 r (insertGroup_key_mem gs r q), by rw [hx]; exact hf⟩
          · exact ho3 x hx

/-- A list of groups holding two distinct keys has at least two entries. -/
theorem two_keys_length {l : List (ℕ × List ℕ)} {k1 k2 : ℕ}
    (h1 : k1 ∈ l.map Prod.fst) (h2 : k2 ∈ l.map Prod.fst) (hne : k1 ≠ k2) :
    2 ≤ l.length := by
  match l with
  | [] => exact absurd h1 (by simp)
  | [a] =>
    simp only [List.map_cons, List.map_nil, List.mem_singleton] at h1 h2
    exact absurd (h1.trans h2.symm) hne
  | a :: b :: t =>
    simp only [List.length_cons]
    omega

/-- A split over a sound identity array either runs out of find fuel or
returns at least two components (the two endpoint colours cannot merge),
each consisting of the cluster's own points. -/
theorem splitClusterAtEdge_cases (n : ℕ) (f : ℕ → Bool) (points : List ℕ)
    (distance : ℚ) (laterEdges : List Edge)
    (hpts : ∀ q ∈ points, q < n)
    (hcol : ∀ g ∈ laterEdges, f g.s = f g.d)
    (x y : ℕ) (hx : x ∈ points) (hy : y ∈ points) (hf : f x ≠ f y) :
    splitClusterAtEdge points distance laterEdges n =
        Except.error "union-find fuel exhausted" ∨
    ∃ comps, splitClusterAtEdge points distance laterEdges n =
        Except.ok comps ∧ 2 ≤ comps.length ∧
      ∀ c ∈ comps, ∀ q ∈ c, q ∈ points := by
  have hp0 : UFok n f (List.range n) := UFok_range n f
  rcases foldlM_unionStep_cases n f points hpts n
      (laterEdges.filter (fun e => decide (e.w ≤ distance)))
      (fun g hg _ _ => hcol g (List.mem_of_mem_filter hg))
      (List.range n) hp0 with herr | ⟨p1, hok1, hp1⟩
  · left
    unfold splitClusterAtEdge
    rw [unionFold_eq, herr]
    rfl
  · rcases foldlM_groupStep_cases n f n points hpts [] p1 hp1 with
      herr2 | ⟨out, hout, _, _, ho3⟩
    · left
      unfold splitClusterAtEdge
      rw [unionFold_eq, hok1, ok_bind, groupPoints_eq, herr2]
      rfl
    · right
      refine ⟨out.1.map Prod.snd, ?_, ?_, ?_⟩
      · unfold splitClusterAtEdge
        rw [unionFold_eq, hok1, ok_bind, groupPoints_eq, hout, ok_bind]
      · obtain ⟨kx, hkx, hfx⟩ := ho3 x hx
        obtain ⟨ky, hky, hfy⟩ := ho3 y hy
        have hne : kx ≠ ky := fun he => hf (by rw [← hfx, he, hfy])
        have h2 := two_keys_length hkx hky hne
        rw [List.length_map]
        exact h2
      · intro c hc q hq
        have hflat : ((out.1.map Prod.snd).flatten).Perm
            (((([] : List (ℕ × List ℕ)).map Prod.snd).flatten) ++ points) :=
          groupPoints_flatten n points [] p1 out hout
        have hmem : q ∈ (out.1.map Prod.snd).flatten :=
          List.mem_flatten.mpr ⟨c, hc, hq⟩
        have := hflat.mem_iff.mp hmem
        simpa using this

/-- The candidate stored at an in-range index after relaxation. -/
theorem relaxEdges_get (distances : List (List ℚ)) (n v : ℕ)
    (visited2 : List ℕ) (minE : List (Option (ℚ × ℕ))) (i : ℕ) (hi : i < n) :
    (((relaxEdges distances n v visited2 minE).get? i).join) =
      if i ∈ visited2 then (minE.get? i).join
      else
        match rowGet distances v i, (minE.get? i).join with
        | some w, some wc => if w < wc.1 then some (w, v) else some wc
        | some _, none => none
        | none, o => o := by
  unfold relaxEdges
  rw [List.get?_map, List.get?_range hi]
  rfl

/-- Relaxation only stores candidates whose recorded source is a visited
vertex (the newly visited `v` or an already recorded source). -/
theorem relaxEdges_sources (distances : List (List ℚ)) (n v : ℕ)
    (visited2 : List ℕ) (minE : List (Option (ℚ × ℕ)))
    (hinv : ∀ i wc, (minE.get? i).join = some wc → wc.2 ∈ visited2)
    (hv : v ∈ visited2) :
    ∀ i wc, (((relaxEdges distances n v visited2 minE).get? i).join) = some wc →
      wc.2 ∈ visited2 := by
  intro i wc h
  by_cases hi : i < n
  · rw [relaxEdges_get distances n v visited2 minE i hi] at h
    by_cases him : i ∈ visited2
    · rw [if_pos him] at h
      exact hinv i wc h
    · rw [if_neg him] at h
      cases hrow : rowGet distances v i with
      | none =>
        rw [hrow] at h
        dsimp only at h
        exact hinv i wc h
      | some w =>
        rw [hrow] at h
        cases hold : (minE.get? i).join with
        | none =>
          rw [hold] at h
          dsimp only at h
          exact Option.noConfusion h
        | some wc' =>
          rw [hold] at h
          dsimp only at h
          by_cases hlt : w < wc'.1
          · rw [if_pos hlt] at h
            injection h with h2
            rw [← h2]
            exact hv
          · rw [if_neg hlt] at h
            injection h with h2
            rw [← h2]
            exact hinv i wc' hold
  · have hnone : (relaxEdges distances n v visited2 minE).get? i = none := by
      unfold relaxEdges
      rw [List.get?_eq_none]
      rw [List.length_map, List.length_range]
      omega
    rw [hnone] at h
    exact Option.noConfusion h

/-- One emitting step of the Prim loop. -/
theorem mstLoop_step (distances : List (List ℚ)) (n fuel : ℕ)
    (visited : List ℕ) (minE : List (Option (ℚ × ℕ))) (edges : List Edge)
    (hge : ¬ n ≤ visited.length) (wv : ℚ × ℕ)
    (hsel : selectMinVertex n visited minE = some wv) :
    mstLoop distances n (fuel + 1) visited minE edges =
      mstLoop distances n fuel (wv.2 :: visited)
        (relaxEdges distances n wv.2 (wv.2 :: visited) minE)
        (edges ++ [⟨(((minE.get? wv.2).join).map Prod.snd).getD 0, wv.2, wv.1⟩]) := by
  simp only [mstLoop]
  rw [if_neg hge, hsel]

/-- A Prim-shaped edge list never repeats an edge. -/
theorem primOK_nodup (n : ℕ) :
    ∀ (es : List Edge) (visited : List ℕ), primOK n visited es → es.Nodup
  | [], _, _ => List.nodup_nil
  | e :: rest, visited, h => by
    obtain ⟨_, _, _, hrest⟩ := h
    refine List.nodup_cons.mpr ⟨?_, primOK_nodup n rest (e.d :: visited) hrest⟩
    intro hm
    exact (primOK_dest_not_visited n rest (e.d :: visited) hrest e hm)
      (List.mem_cons_self e.d visited)

/-- In a Prim-shaped list over in-range visited vertices, every endpoint is
in range. -/
theorem primOK_bounds (n : ℕ) :
    ∀ (es : List Edge) (visited : List ℕ), primOK n visited es →
      (∀ u ∈ visited, u < n) → ∀ e ∈ es, e.s < n ∧ e.d < n
  | [], _, _, _ => by intro e he; exact absurd he (by simp)
  | e :: rest, visited, h, hvis => by
    obtain ⟨hs, _, hdn, hrest⟩ := h
    intro a ha
    rcases List.mem_cons.mp ha with ha2 | ham
    · rw [ha2]
      exact ⟨hvis e.s hs, hdn⟩
    · refine primOK_bounds n rest (e.d :: visited) hrest ?_ a ham
      intro u hu
      rcases List.mem_cons.mp hu with hu2 | hum
      · rw [hu2]; exact hdn
      · exact hvis u hum

/-- Every successful run of the Prim loop emits a Prim-shaped suffix whose
length tops the visited count up to `n`. -/
theorem mstLoop_primOK (distances : List (List ℚ)) (n : ℕ) :
    ∀ (fuel : ℕ) (visited : List ℕ) (minE : List (Option (ℚ × ℕ)))
      (edges out : List Edge),
      0 ∈ visited →
      (∀ i wc, (minE.get? i).join = some wc → wc.2 ∈ visited) →
      mstLoop distances n fuel visited minE edges = some out →
      ∃ suffix, out = edges ++ suffix ∧ primOK n visited suffix ∧
        visited.length + suffix.length = max n visited.length
  | 0, visited, minE, edges, out => by
    intro _ _ hout
    simp only [mstLoop] at hout
    by_cases hge : n ≤ visited.length
    · rw [if_pos hge] at hout
      injection hout with h2
      refine ⟨[], by rw [← h2, List.append_nil], trivial,
        by simp only [List.length_nil]; omega⟩
    · rw [if_neg hge] at hout
      exact Option.noConfusion hout
  | fuel + 1, visited, minE, edges, out => by
    intro h0 hminE hout
    by_cases hge : n ≤ visited.length
    · have hout2 : some edges = some out := by
        rw [← hout]
        simp only [mstLoop]
        rw [if_pos hge]
      injection hout2 with h2
      refine ⟨[], by rw [← h2, List.append_nil], trivial,
        by simp only [List.length_nil]; omega⟩
    · cases hsel : selectMinVertex n visited minE with
      | none =>
        exfalso
        have hout2 : (none : Option (List Edge)) = some out := by
          rw [← hout]
          simp only [mstLoop]
          rw [if_neg hge, hsel]
        exact Option.noConfusion hout2
      | some wv =>
        rw [mstLoop_step distances n fuel visited minE edges hge wv hsel] at hout
        obtain ⟨hv1, hv2, _, _⟩ := (selectFold_spec visited minE n).2 wv.1 wv.2
          (by unfold selectMinVertex at hsel; rw [hsel])
        have hconn : (((minE.get? wv.2).join).map Prod.snd).getD 0 ∈ visited := by
          cases hj : (minE.get? wv.2).join with
          | none => exact h0
          | some wc =>
            have := hminE wv.2 wc hj
            simpa using this
        have hminE2 : ∀ i wc,
            (((relaxEdges distances n wv.2 (wv.2 :: visited) minE).get? i).join)
              = some wc → wc.2 ∈ wv.2 :: visited := by
          refine relaxEdges_sources distances n wv.2 (wv.2 :: visited) minE
            ?_ (List.mem_cons_self wv.2 visited)
          intro i wc hwc
          exact List.mem_cons_of_mem _ (hminE i wc hwc)
        obtain ⟨suffix, hsfx, hpk, hcnt⟩ := mstLoop_primOK distances n fuel
          (wv.2 :: visited)
          (relaxEdges distances n wv.2 (wv.2 :: visited) minE)
          (edges ++ [⟨(((minE.get? wv.2).join).map Prod.snd).getD 0, wv.2, wv.1⟩])
          out (List.mem_cons_of_mem _ h0) hminE2 hout
        refine ⟨⟨(((minE.get? wv.2).join).map Prod.snd).getD 0, wv.2, wv.1⟩ ::
          suffix, ?_, ?_, ?_⟩
        · rw [hsfx, List.append_assoc]
          rfl
        · exact ⟨hconn, hv2, hv1, hpk⟩
        · simp only [List.length_cons] at hcnt ⊢
          omega

/-- The emitted MST is Prim-shaped from `[0]` and has `n - 1` edges for
`n ≥ 1` (and is empty otherwise). -/
theorem buildMST_shape (M : List (List ℚ)) (mst : List Edge)
    (h : buildMinimumSpanningTree M = some mst) :
    primOK M.length [0] mst ∧ 1 + mst.length = max M.length 1 := by
  unfold buildMinimumSpanningTree at h
  have hminE0 : ∀ i wc,
      (((List.range M.length).map
        (fun i => if i = 0 then none
          else (rowGet M 0 i).map (fun w => (w, 0)))).get? i).join = some wc →
        wc.2 ∈ [0] := by
    intro i wc hwc
    by_cases hi : i < M.length
    · rw [List.get?_map, List.get?_range hi] at hwc
      simp only [Option.map_some', join_some] at hwc
      by_cases hi0 : i = 0
      · rw [if_pos hi0] at hwc
        exact Option.noConfusion hwc
      · rw [if_neg hi0] at hwc
        cases hrow : rowGet M 0 i with
        | none =>
          rw [hrow] at hwc
          exact Option.noConfusion hwc
        | some w =>
          rw [hrow] at hwc
          injection hwc with h2
          rw [← h2]
          simp
    · have hlen : ((List.range M.length).map
          (fun i => if i = 0 then none
            else (rowGet M 0 i).map (fun w => (w, 0)))).length ≤ i := by
        rw [List.length_map, List.length_range]
        omega
      rw [List.get?_eq_none.mpr hlen] at hwc
      exact Option.noConfusion hwc
  obtain ⟨suffix, hsfx, hpk, hcnt⟩ := mstLoop_primOK M M.length M.length [0]
    ((List.range M.length).map
      (fun i => if i = 0 then none
        else (rowGet M 0 i).map (fun w => (w, 0))))
    [] mst (by simp) hminE0 h
  rw [List.nil_append] at hsfx
  subst hsfx
  simp only [List.length_cons, List.length_nil] at hcnt
  exact ⟨hpk, by omega⟩

/-- When the cluster at index 0 contains all queried points, the parent
search succeeds and returns a cluster containing them. -/
theorem findCluster_root (hier : List Cluster) (c₀ : Cluster)
    (h0 : hier.get? 0 = some c₀) (points : List ℕ)
    (hpts : ∀ p ∈ points, p ∈ c₀.children) :
    ∃ pIdx pc, findClusterContainingPoints points hier = some pIdx ∧
      hier.get? pIdx = some pc ∧ ∀ p ∈ points, p ∈ pc.children := by
  have hlen : 0 < hier.length := by
    by_contra hle
    have hnone : hier.get? 0 = none := List.get?_eq_none.mpr (by omega)
    rw [hnone] at h0
    exact Option.noConfusion h0
  cases hf : findClusterContainingPoints points hier with
  | none =>
    exfalso
    unfold findClusterContainingPoints at hf
    have hmem : 0 ∈ (List.range hier.length).reverse := by
      rw [List.mem_reverse, List.mem_range]
      exact hlen
    have hnp := List.find?_eq_none.mp hf 0 hmem
    apply hnp
    simp only [h0]
    exact List.all_eq_true.mpr (fun p hp => decide_eq_true (hpts p hp))
  | some pIdx =>
    have hp := List.find?_some
      (by unfold findClusterContainingPoints at hf; exact hf)
    cases hg : hier.get? pIdx with
    | none =>
      rw [hg] at hp
      dsimp only at hp
      exact Bool.noConfusion hp
    | some pc =>
      rw [hg] at hp
      dsimp only at hp
      refine ⟨pIdx, pc, rfl, hg, ?_⟩
      intro p hpm
      exact of_decide_eq_true (List.all_eq_true.mp hp p hpm)

/-- One hierarchy step, on an invariant-satisfying state and an MST edge
whose tail companions are other MST edges, either runs out of union-find
fuel or succeeds preserving the invariant — it never reaches the
`parentCluster not found` or the two-components throw, and never calls
`find` out of bounds. -/
theorem hierarchyStep_cases (mst : List Edge) (mcs : ℤ) (n : ℕ)
    (hn : n = mst.length + 1)
    (hr : ∀ g ∈ mst, rankOf mst g.s < rankOf mst g.d)
    (hinj : ∀ g ∈ mst, ∀ g' ∈ mst, g.d = g'.d → g = g')
    (e : Edge) (rest : List Edge) (he : e ∈ mst)
    (hbs : e.s < n) (hbd : e.d < n)
    (hrest : ∀ g ∈ rest, g ∈ mst) (hne : e ∉ rest)
    (st : List Cluster × ℕ) (hinv : INVn n st.1) :
    hierarchyStep mst mcs st e rest = Except.error "union-find fuel exhausted" ∨
    ∃ st', hierarchyStep mst mcs st e rest = Except.ok st' ∧ INVn n st'.1 := by
  obtain ⟨⟨c₀, h0, hc0⟩, hbnd⟩ := hinv
  obtain ⟨pIdx, pc, hfc, hgp, hmem2⟩ := findCluster_root st.1 c₀ h0 [e.s, e.d]
    (by
      intro p hp
      rw [hc0, List.mem_range]
      rcases List.mem_cons.mp hp with h1 | h1
      · rw [h1]; exact hbs
      · rw [List.mem_singleton.mp h1]; exact hbd)
  have hlen0 : 0 < st.1.length := by
    by_contra hle
    have hnone : st.1.get? 0 = none := List.get?_eq_none.mpr (by omega)
    rw [hnone] at h0
    exact Option.noConfusion h0
  unfold hierarchyStep
  dsimp only
  rw [hfc]
  dsimp only
  rw [hgp]
  simp only [Option.getD_some]
  by_cases hleft : pc.leftChildId.isSome = true
  · rw [if_pos hleft]
    exact Or.inr ⟨(st.1, st.2), rfl, ⟨⟨c₀, h0, hc0⟩, hbnd⟩⟩
  · rw [if_neg hleft]
    have hfd : descOf mst e.d e.d = true := descend_self mst e.d mst.length
    have hfs : descOf mst e.d e.s = false := desc_source_false mst e he hr
    have hcolr : ∀ g ∈ rest, descOf mst e.d g.s = descOf mst e.d g.d :=
      fun g hg => desc_edge_invariant mst e he hinj hr g (hrest g hg)
        (fun heq => hne (heq ▸ hg))
    have hpts : ∀ q ∈ pc.children, q < n := hbnd pc (List.get?_mem hgp)
    rw [← hn]
    rcases splitClusterAtEdge_cases n (descOf mst e.d) pc.children e.w rest
        hpts hcolr e.s e.d (hmem2 e.s (by simp)) (hmem2 e.d (by simp))
        (by rw [hfs, hfd]; exact Bool.false_ne_true) with
      herr | ⟨comps, hok, h2c, hsub⟩
    · left
      rw [herr]
      rfl
    · rw [hok, ok_bind]
      cases comps with
      | nil => exact absurd h2c (by simp)
      | cons a t0 =>
        cases t0 with
        | nil => exact absurd h2c (by simp)
        | cons b t =>
          cases t with
          | nil =>
            rw [if_neg (by simp), if_neg (by simp), if_pos (by simp),
              pure_bind]
            refine Or.inr ⟨(st.1.set pIdx { pc with
                leftChildId :=
                  if ((a.length : ℤ) ≥ mcs) then
                    some (createCluster a e.w mst e.w st.2).id
                  else pc.leftChildId
                rightChildId :=
                  if ((b.length : ℤ) ≥ mcs) then
                    some (createCluster b e.w mst e.w (st.2 + 1)).id
                  else pc.rightChildId }
              ++ [createCluster a e.w mst e.w st.2,
                  createCluster b e.w mst e.w (st.2 + 1)],
              st.2 + 2), rfl, ?_, ?_⟩
            · by_cases hp0 : pIdx = 0
              · subst hp0
                have hpc0 : c₀ = pc := Option.some_inj.mp (h0.symm.trans hgp)
                refine ⟨{ pc with
                  leftChildId :=
                    if ((a.length : ℤ) ≥ mcs) then
                      some (createCluster a e.w mst e.w st.2).id
                    else pc.leftChildId
                  rightChildId :=
                    if ((b.length : ℤ) ≥ mcs) then
                      some (createCluster b e.w mst e.w (st.2 + 1)).id
                    else pc.rightChildId }, ?_, ?_⟩
                · rw [List.get?_append (by rw [List.length_set]; exact hlen0),
                    List.get?_set_eq, h0]
                  rfl
                · show pc.children = List.range n
                  rw [← hpc0, hc0]
              · refine ⟨c₀, ?_, hc0⟩
                rw [List.get?_append (by rw [List.length_set]; exact hlen0),
                  List.get?_set_ne _ _ hp0]
                exact h0
            · intro c hc q hq
              rcases List.mem_append.mp hc with hc | hc
              · rcases List.mem_or_eq_of_mem_set hc with hc2 | hc2
                · exact hbnd c hc2 q hq
                · rw [hc2] at hq
                  exact hpts q hq
              · rcases List.mem_cons.mp hc with hc2 | hc2
                · rw [hc2] at hq
                  exact hpts q (hsub a (by simp) q hq)
                · rw [List.mem_singleton.mp hc2] at hq
                  exact hpts q (hsub b (by simp) q hq)
          | cons c2 t' =>
            rw [if_pos (Or.inl (by simp only [List.length_cons]; omega)),
              pure_bind]
            exact Or.inr ⟨(st.1, st.2), rfl, ⟨⟨c₀, h0, hc0⟩, hbnd⟩⟩

/-- The whole edge loop either runs out of union-find fuel or succeeds,
starting from any invariant-satisfying state. -/
theorem hierarchyLoop_cases (mst : List Edge) (mcs : ℤ) (n : ℕ)
    (hn : n = mst.length + 1)
    (hr : ∀ g ∈ mst, rankOf mst g.s < rankOf mst g.d)
    (hinj : ∀ g ∈ mst, ∀ g' ∈ mst, g.d = g'.d → g = g')
    (hbnd : ∀ g ∈ mst, g.s < n ∧ g.d < n) :
    ∀ (l : List Edge), l.Nodup → (∀ g ∈ l, g ∈ mst) →
      ∀ (st : List Cluster × ℕ), INVn n st.1 →
      hierarchyLoop mst mcs l st = Except.error "union-find fuel exhausted" ∨
      ∃ st', hierarchyLoop mst mcs l st = Except.ok st'
  | [], _, _, st, _ => Or.inr ⟨st, rfl⟩
  | e :: tl, hnd, hsub, st, hinv => by
    have hem : e ∈ mst := hsub e (List.mem_cons_self e tl)
    obtain ⟨hndh, hndt⟩ := List.nodup_cons.mp hnd
    rcases hierarchyStep_cases mst mcs n hn hr hinj e tl hem
        (hbnd e hem).1 (hbnd e hem).2
        (fun g hg => hsub g (List.mem_cons_of_mem e hg)) hndh st hinv with
      herr | ⟨st2, hok, hinv2⟩
    · left
      show (hierarchyStep mst mcs st e tl >>= _) = _
      rw [herr]
      rfl
    · have hstep : hierarchyLoop mst mcs (e :: tl) st =
          hierarchyLoop mst mcs tl st2 := by
        show (hierarchyStep mst mcs st e tl >>= _) = _
        rw [hok]
        rfl
      rw [hstep]
      exact hierarchyLoop_cases mst mcs n hn hr hinj hbnd tl hndt
        (fun g hg => hsub g (List.mem_cons_of_mem e hg)) st2 hinv2

/-- The hierarchy builder, fed an MST whose edges are duplicate-free,
in-range, destination-injective and rank-increasing, fails only with the
union-find fuel message or the empty-MST TypeError. -/
theorem buildClusterHierarchy_cases (mst : List Edge) (mcs : ℤ) (nid0 : ℕ)
    (hr : ∀ g ∈ mst, rankOf mst g.s < rankOf mst g.d)
    (hinj : ∀ g ∈ mst, ∀ g' ∈ mst, g.d = g'.d → g = g')
    (hnd : mst.Nodup)
    (hbnd : ∀ g ∈ mst, g.s < mst.length + 1 ∧ g.d < mst.length + 1) :
    buildClusterHierarchy mst mcs nid0 =
        Except.error "union-find fuel exhausted" ∨
    buildClusterHierarchy mst mcs nid0 =
        Except.error "TypeError: undefined sorted edge" ∨
    ∃ hpair, buildClusterHierarchy mst mcs nid0 = Except.ok hpair := by
  have hperm : (List.insertionSort (fun a b => b.w ≤ a.w) mst).Perm mst :=
    List.perm_insertionSort (fun a b => b.w ≤ a.w) mst
  unfold buildClusterHierarchy
  dsimp only
  cases hget : (List.insertionSort (fun a b => b.w ≤ a.w) mst).get? 0 with
  | none =>
    exact Or.inr (Or.inl rfl)
  | some e0 =>
    dsimp only
    rcases hierarchyLoop_cases mst mcs (mst.length + 1) rfl hr hinj hbnd
        (List.insertionSort (fun a b => b.w ≤ a.w) mst)
        (hperm.nodup_iff.mpr hnd)
        (fun g hg => hperm.mem_iff.mp hg)
        ([createCluster (List.range (mst.length + 1)) e0.w
            (List.insertionSort (fun a b => b.w ≤ a.w) mst) e0.w nid0],
          nid0 + 1)
        ⟨⟨_, rfl, rfl⟩, by
          intro c hc q hq
          rw [List.mem_singleton.mp hc] at hq
          exact List.mem_range.mp hq⟩ with herr | ⟨st', hok⟩
    · exact Or.inl herr
    · exact Or.inr (Or.inr ⟨st', hok⟩)

/-- The only throw of the core-distance loop is the undefined-core
TypeError. -/
theorem coresLoop_error (ms : ℤ) (data : List (List ℚ)) :
    ∀ (l : List ℕ) (msg : String),
      coresLoop ms data l = Except.error msg →
      msg = "TypeError: undefined core distance"
  | [], msg => by
    intro h
    exact Except.noConfusion h
  | i :: rest, msg => by
    intro h
    unfold coresLoop at h
    cases hcd : coreDistanceOf ms data i with
    | none =>
      rw [hcd] at h
      dsimp only at h
      injection h with h2
      exact h2.symm
    | some q =>
      rw [hcd] at h
      dsimp only at h
      cases hrec : coresLoop ms data rest with
      | error e2 =>
        rw [hrec, error_bind] at h
        injection h with h2
        rw [← h2]
        exact coresLoop_error ms data rest e2 hrec
      | ok qs =>
        rw [hrec, ok_bind] at h
        exact Except.noConfusion h

/-- The only throw of the matrix stage is the undefined-core TypeError. -/
theorem computeMRD_error (ms : ℤ) (data : List (List ℚ)) (msg : String)
    (h : computeMutualReachabilityDistance ms data = Except.error msg) :
    msg = "TypeError: undefined core distance" := by
  unfold computeMutualReachabilityDistance at h
  dsimp only at h
  cases hc : coresLoop ms data (List.range data.length) with
  | error e =>
    rw [hc, error_bind] at h
    injection h with h2
    rw [← h2]
    exact coresLoop_error ms data (List.range data.length) e hc
  | ok cds =>
    rw [hc, ok_bind] at h
    exact Except.noConfusion h

/-- C10: on every dataset and every instance state, `fit` never raises one
of the three internal invariant errors — the parent-cluster search cannot
fail (the root cluster at index 0 holds every point index), `find` is never
called with an index at or above the parent array's length, and the
`splitClusterAtEdge returned less or more than 2 components` throw is
unreachable (removing an MST edge always separates its endpoints, so every
successful split of a cluster containing both has at least two
components); every failing `fit` carries some other message. -/
theorem fit_no_invariant_errors (s : HState) (data : List (List ℚ))
    (msg : String) (h : fit s data = Except.error msg) :
    msg ≠ "parentCluster not found" ∧
    msg ≠ "find called with x greater than parent array length" ∧
    msg ≠ "splitClusterAtEdge returned less or more than 2 components" := by
  unfold fit at h
  cases hmr : computeMutualReachabilityDistance s.minSamples data with
  | error e1 =>
    rw [hmr, error_bind] at h
    injection h with h2
    rw [← h2, computeMRD_error s.minSamples data e1 hmr]
    exact ⟨by decide, by decide, by decide⟩
  | ok M =>
    rw [hmr, ok_bind] at h
    dsimp only at h
    cases hmst : buildMinimumSpanningTree M with
    | none =>
      rw [hmst] at h
      rw [show fromOption (none : Option (List Edge))
          "nontermination: MST selection failed" =
          Except.error "nontermination: MST selection failed" from rfl,
        error_bind] at h
      injection h with h2
      rw [← h2]
      exact ⟨by decide, by decide, by decide⟩
    | some mst =>
      rw [hmst] at h
      rw [show fromOption (some mst) "nontermination: MST selection failed" =
          Except.ok mst from rfl, ok_bind] at h
      obtain ⟨hpk, hcnt⟩ := buildMST_shape M mst hmst
      have hnd : mst.Nodup := primOK_nodup M.length mst [0] hpk
      have hinj := primOK_dest_inj M.length mst [0] hpk
      have hr := primOK_rank_lt M.length mst [0] hpk
      have hbnd : ∀ g ∈ mst, g.s < mst.length + 1 ∧ g.d < mst.length + 1 := by
        intro g hg
        rcases Nat.eq_zero_or_pos M.length with h0 | hpos
        · exfalso
          have hml : mst.length = 0 := by omega
          rw [List.length_eq_zero] at hml
          rw [hml] at hg
          exact absurd hg (by simp)
        · have hM : M.length = mst.length + 1 := by omega
          have hb := primOK_bounds M.length mst [0] hpk
            (by intro u hu; rw [List.mem_singleton.mp hu]; omega) g hg
          omega
      rcases buildClusterHierarchy_cases mst s.minClusterSize s.nextClusterId
          hr hinj hnd hbnd with hh | hh | ⟨hp2, hh⟩
      · rw [hh, error_bind] at h
        injection h with h2
        rw [← h2]
        exact ⟨by decide, by decide, by decide⟩
      · rw [hh, error_bind] at h
        injection h with h2
        rw [← h2]
        exact ⟨by decide, by decide, by decide⟩
      · rw [hh, ok_bind] at h
        cases hex : extractClusters (condenseHierarchy hp2.1 s.minClusterSize)
            data.length s.minClusterSize s.shouldSkipRootCluster with
        | none =>
          rw [hex] at h
          rw [show fromOption (none : Option (List ℤ × List JSN))
              "nontermination: extraction fuel exhausted" =
              Except.error "nontermination: extraction fuel exhausted" from rfl,
            error_bind] at h
          injection h with h2
          rw [← h2]
          exact ⟨by decide, by decide, by decide⟩
        | some lp =>
          rw [hex] at h
          rw [show fromOption (some lp)
              "nontermination: extraction fuel exhausted" =
              Except.ok lp from rfl, ok_bind] at h
          exact Except.noConfusion h

/-- Witness for `fit_no_invariant_errors` at the single-point dataset,
where `fit` fails with the (distinct) undefined-core TypeError. -/
theorem fit_no_invariant_errors_witness :
    fit S33 [[0]] = Except.error "TypeError: undefined core distance" ∧
    ("TypeError: undefined core distance" ≠ "parentCluster not found" ∧
      "TypeError: undefined core distance" ≠
        "find called with x greater than parent array length" ∧
      "TypeError: undefined core distance" ≠
        "splitClusterAtEdge returned less or more than 2 components") :=
  ⟨by with_unfolding_all rfl,
    fit_no_invariant_errors S33 [[0]] "TypeError: undefined core distance"
      (by with_unfolding_all rfl)⟩

end HDB
